import Mathlib

/-!
Verification development for the FRI prover core (`src/fri/src/prover.rs`):
the commit phase (`commit_phase`), the proof-of-work grind, the query phase
(`answer_query` and the query loop inside `prove`), and the proof assembly.

The embedding is shallow and executable.  External collaborators are modelled
exactly at the interfaces the source consumes:

* the vector-commitment scheme (`Mmcs`) is a record of the three operations
  `commit_matrix`, `get_matrices` and `open_batch`;
* the Fiat–Shamir challenger is a deterministic state machine whose state is
  the list of transcript events issued so far, with the responses to
  `sample`, `sample_bits` and `grind` arbitrary deterministic functions of the
  event history (this is fully general for deterministic challengers);
* the fold strategy (`FriGenericConfig`) supplies `extra_query_index_bits`
  and `fold_matrix`.

Every Rust panic site is mapped to an explicit `FriError` constructor, and the
possibly-nonterminating commit-phase `while` loop is given a fuel parameter
(`FriError.fuelExhausted` marks fuel exhaustion, which corresponds to a run of
the source that has not yet terminated).  Each operation also returns the
transcript event list at the moment it returns, so that statements about
"transcript interactions before an abort" can be made.
-/

namespace FriProver

/-- Each constructor corresponds to one panic site of the source (or, for
`fuelExhausted`, to the fuel artifact of embedding the `while` loop):
`emptyInput` is `inputs[0]` / `inputs_iter.next().unwrap()` on an empty input
list; `notSorted` is the `assert!` on descending lengths; `logNotStrict` is
the panic of `log2_strict_usize`; `noMatrices` is
`get_matrices(..).pop().unwrap()`; `badRowCount` is
`assert_eq!(opened_rows.len(), 1)`; `badRowLength` is
`assert_eq!(opened_row.len(), 2)`; `rowEntryMissing` is an out-of-bounds
`opened_row[..]` access. -/
inductive FriError where
  | emptyInput
  | notSorted
  | logNotStrict
  | fuelExhausted
  | noMatrices
  | badRowCount
  | badRowLength
  | rowEntryMissing
  deriving DecidableEq, Repr

/-- Embeds `p3_matrix::dense::RowMajorMatrix`: a flat list of values together with a
row width. -/
structure RowMajorMatrix (F : Type) where
  values : List F
  width : Nat
  deriving DecidableEq, Repr

/-- Embeds `RowMajorMatrix::new(values, width)`. -/
def RowMajorMatrix.new {F : Type} (values : List F) (width : Nat) : RowMajorMatrix F :=
  ⟨values, width⟩

/-- The `Mmcs` commitment-scheme collaborator, at exactly the three operations
the prover consumes: `commit_matrix`, `get_matrices`, `open_batch`. -/
structure Mmcs (F Com PD OP : Type) where
  commitMatrix : RowMajorMatrix F → Com × PD
  getMatrices : PD → List (RowMajorMatrix F)
  openBatch : Nat → PD → List (List F) × OP

/-- The `FriGenericConfig` fold-strategy collaborator: the extra query index
bit width and the `fold_matrix` folding rule (opaque to the prover). -/
structure FriGenericConfig (F : Type) where
  extraQueryIndexBits : Nat
  foldMatrix : F → RowMajorMatrix F → List F

/-- Modelled from the spec (for `FriConfig`): the accessor methods `blowup()` and
`final_poly_len()` of `FriConfig` live outside the provided source tree, so
their results are modelled as opaque natural-number parameters `blowup` and
`finalPolyLen` (the spec describes them as the blowup length and the minimum
final-polynomial length); `num_queries` and `proof_of_work_bits` are plain
fields, and `mmcs` is the commitment-scheme handle. -/
structure FriConfig (F Com PD OP : Type) where
  blowup : Nat
  finalPolyLen : Nat
  numQueries : Nat
  proofOfWorkBits : Nat
  mmcs : Mmcs F Com PD OP

/-- One transcript interaction, as recorded in the challenger's event log. -/
inductive TEvent (F Com W : Type) where
  | observe : Com → TEvent F Com W
  | sample : F → TEvent F Com W
  | sampleBits : Nat → Nat → TEvent F Com W
  | grind : Nat → W → TEvent F Com W
  deriving DecidableEq, Repr

/-- A deterministic Fiat–Shamir challenger: the responses to `sample`,
`sample_bits` and `grind` are arbitrary deterministic functions of the event
history.  Any deterministic challenger state machine is an instance (its state
is a function of the initial state and the event history). -/
structure Challenger (F Com W : Type) where
  sampleFn : List (TEvent F Com W) → F
  sampleBitsFn : Nat → List (TEvent F Com W) → Nat
  grindFn : Nat → List (TEvent F Com W) → W

/-- Embeds `challenger.observe(commit)`. -/
def Challenger.observe {F Com W : Type} (_ch : Challenger F Com W)
    (st : List (TEvent F Com W)) (c : Com) : List (TEvent F Com W) :=
  st ++ [TEvent.observe c]

/-- Embeds `challenger.sample()`: returns the sampled field element and the new
transcript state. -/
def Challenger.sample {F Com W : Type} (ch : Challenger F Com W)
    (st : List (TEvent F Com W)) : F × List (TEvent F Com W) :=
  (ch.sampleFn st, st ++ [TEvent.sample (ch.sampleFn st)])

/-- Embeds `challenger.sample_bits(width)`. -/
def Challenger.sampleBits {F Com W : Type} (ch : Challenger F Com W)
    (width : Nat) (st : List (TEvent F Com W)) : Nat × List (TEvent F Com W) :=
  (ch.sampleBitsFn width st, st ++ [TEvent.sampleBits width (ch.sampleBitsFn width st)])

/-- Embeds `challenger.grind(bits)`. -/
def Challenger.grind {F Com W : Type} (ch : Challenger F Com W)
    (bits : Nat) (st : List (TEvent F Com W)) : W × List (TEvent F Com W) :=
  (ch.grindFn bits st, st ++ [TEvent.grind bits (ch.grindFn bits st)])

/-- Embeds `CommitPhaseProofStep`: the sibling value and the opening proof of one
round of one query. -/
structure CommitPhaseProofStep (F OP : Type) where
  sibling_value : F
  opening_proof : OP
  deriving DecidableEq, Repr

/-- Embeds `QueryProof`: the input-opening proof plus one opening step per
commit-phase round. -/
structure QueryProof (F IP OP : Type) where
  input_proof : IP
  commit_phase_openings : List (CommitPhaseProofStep F OP)
  deriving DecidableEq, Repr

/-- Embeds `FriProof`: the emitted artifact. -/
structure FriProof (F Com W IP OP : Type) where
  commit_phase_commits : List Com
  query_proofs : List (QueryProof F IP OP)
  final_poly : List F
  pow_witness : W
  deriving DecidableEq, Repr

/-- Embeds `CommitPhaseResult`: round commitments, retained prover data, final
polynomial. -/
structure CommitPhaseResult (F Com PD : Type) where
  commits : List Com
  data : List PD
  final_poly : List F
  deriving DecidableEq, Repr

/-- The mutable state of the commit-phase `while` loop: the working vector
`folded`, the not-yet-consumed inputs (the peekable iterator's remainder), and
the accumulated `commits` and `data` vectors. -/
structure CPState (F Com PD : Type) where
  folded : List F
  pending : List (List F)
  commits : List Com
  data : List PD
  deriving DecidableEq, Repr

/-- Embeds `izip!(&mut folded, v).for_each(|(c, x)| *c += x)`: elementwise addition
over the common prefix, keeping the tail of `folded` unchanged. -/
def addAssign {F : Type} [Add F] (folded v : List F) : List F :=
  List.zipWith (fun c x => c + x) folded v ++ folded.drop v.length

/-- The commit-phase loop guard:
`folded.len() > cmp::max(config.blowup(), config.final_poly_len())
 || inputs_iter.peek().is_some()`. -/
def cpGuard {F Com PD OP : Type} (cfg : FriConfig F Com PD OP) (s : CPState F Com PD) : Bool :=
  decide (max cfg.blowup cfg.finalPolyLen < s.folded.length) || !s.pending.isEmpty

/-- One iteration of the commit-phase loop body (source lines 91–105): commit
the working vector as a two-column matrix, observe the commitment, sample the
folding challenge, retrieve the committed matrix, fold it, and mix in the next
pending input when its length matches. -/
def commitPhaseBody {F Com PD OP W : Type} [Add F] (g : FriGenericConfig F)
    (cfg : FriConfig F Com PD OP) (ch : Challenger F Com W)
    (s : CPState F Com PD) (st : List (TEvent F Com W)) :
    Except FriError (CPState F Com PD) × List (TEvent F Com W) :=
  let leaves := RowMajorMatrix.new s.folded 2
  let cp := cfg.mmcs.commitMatrix leaves
  let st1 := ch.observe st cp.1
  let bs := ch.sample st1
  match (cfg.mmcs.getMatrices cp.2).getLast? with
  | none => (Except.error FriError.noMatrices, bs.2)
  | some lv =>
    let folded := g.foldMatrix bs.1 lv
    match s.pending with
    | [] =>
      (Except.ok ⟨folded, [], s.commits ++ [cp.1], s.data ++ [cp.2]⟩, bs.2)
    | v :: rest =>
      if v.length = folded.length then
        (Except.ok ⟨addAssign folded v, rest, s.commits ++ [cp.1], s.data ++ [cp.2]⟩, bs.2)
      else
        (Except.ok ⟨folded, v :: rest, s.commits ++ [cp.1], s.data ++ [cp.2]⟩, bs.2)

/-- The commit-phase `while` loop (source lines 88–106), with fuel. -/
def commitPhaseLoop {F Com PD OP W : Type} [Add F] (g : FriGenericConfig F)
    (cfg : FriConfig F Com PD OP) (ch : Challenger F Com W) :
    Nat → CPState F Com PD → List (TEvent F Com W) →
    Except FriError (CPState F Com PD) × List (TEvent F Com W)
  | 0, s, st =>
    if cpGuard cfg s then (Except.error FriError.fuelExhausted, st) else (Except.ok s, st)
  | fuel + 1, s, st =>
    if cpGuard cfg s then
      match commitPhaseBody g cfg ch s st with
      | (Except.error e, st1) => (Except.error e, st1)
      | (Except.ok s1, st1) => commitPhaseLoop g cfg ch fuel s1 st1
    else (Except.ok s, st)

/-- Embeds `commit_phase` (source lines 70–113): take the largest oracle as the
initial working vector (`inputs_iter.next().unwrap()` panics on an empty
list), run the loop, and package the result. -/
def commitPhase {F Com PD OP W : Type} [Add F] (g : FriGenericConfig F)
    (cfg : FriConfig F Com PD OP) (ch : Challenger F Com W) (fuel : Nat)
    (inputs : List (List F)) (st : List (TEvent F Com W)) :
    Except FriError (CommitPhaseResult F Com PD) × List (TEvent F Com W) :=
  match inputs with
  | [] => (Except.error FriError.emptyInput, st)
  | f :: rest =>
    match commitPhaseLoop g cfg ch fuel ⟨f, rest, [], []⟩ st with
    | (Except.error e, st1) => (Except.error e, st1)
    | (Except.ok s, st1) => (Except.ok ⟨s.commits, s.data, s.folded⟩, st1)

/-- The body of `answer_query` (source lines 124–143): the round counter `i`
is the position in the full `commit_phase_commits` list. -/
def answerQueryAux {F Com PD OP : Type} (cfg : FriConfig F Com PD OP) :
    Nat → List PD → Nat → Except FriError (List (CommitPhaseProofStep F OP))
  | _, [], _ => Except.ok []
  | i, pd :: rest, index =>
    let index_i := index >>> i
    let index_i_sibling := index_i ^^^ 1
    let index_pair := index_i >>> 1
    let ob := cfg.mmcs.openBatch index_pair pd
    if ob.1.length = 1 then
      match ob.1.getLast? with
      | none => Except.error FriError.badRowCount
      | some opened_row =>
        if opened_row.length = 2 then
          match opened_row[index_i_sibling % 2]? with
          | none => Except.error FriError.rowEntryMissing
          | some sibling_value =>
            match answerQueryAux cfg (i + 1) rest index with
            | Except.error e => Except.error e
            | Except.ok steps => Except.ok (⟨sibling_value, ob.2⟩ :: steps)
        else Except.error FriError.badRowLength
    else Except.error FriError.badRowCount

/-- Embeds `answer_query` (source lines 115–144). -/
def answerQuery {F Com PD OP : Type} (cfg : FriConfig F Com PD OP)
    (data : List PD) (index : Nat) : Except FriError (List (CommitPhaseProofStep F OP)) :=
  answerQueryAux cfg 0 data index

/-- The query phase of `prove` (source lines 41–53): for each of the
`num_queries` queries in order, sample an index of width
`log_max_height + extra_query_index_bits`, produce the input opening at the
full index, and answer the query at the index with the extra bits stripped. -/
def queryLoop {F Com PD OP W IP : Type} (g : FriGenericConfig F)
    (cfg : FriConfig F Com PD OP) (ch : Challenger F Com W)
    (openInput : Nat → IP) (data : List PD) (logMaxHeight : Nat) :
    Nat → List (TEvent F Com W) →
    Except FriError (List (QueryProof F IP OP)) × List (TEvent F Com W)
  | 0, st => (Except.ok [], st)
  | n + 1, st =>
    let ib := ch.sampleBits (logMaxHeight + g.extraQueryIndexBits) st
    let ip := openInput ib.1
    match answerQuery cfg data (ib.1 >>> g.extraQueryIndexBits) with
    | Except.error e => (Except.error e, ib.2)
    | Except.ok steps =>
      match queryLoop g cfg ch openInput data logMaxHeight n ib.2 with
      | (Except.error e, st2) => (Except.error e, st2)
      | (Except.ok qps, st2) => (Except.ok (⟨ip, steps⟩ :: qps), st2)

/-- Modelled from the spec: `p3_util::log2_strict_usize` is outside the
provided source tree; per the spec it panics unless its argument is a power of
two, and otherwise returns the exact base-2 logarithm.  (Implemented by
searching for the exponent, so that it evaluates by kernel reduction; any
power of two `2 ^ k = n` has `k < n + 1`.) -/
def log2Strict (n : Nat) : Except FriError Nat :=
  match (List.range (n + 1)).find? (fun k => 2 ^ k == n) with
  | some k => Except.ok k
  | none => Except.error FriError.logNotStrict

/-- The precondition check of `prove` (source lines 30–33):
`inputs.iter().tuple_windows().all(|(l, r)| l.len() >= r.len())`. -/
def sortedDesc {F : Type} : List (List F) → Bool
  | [] => true
  | [_] => true
  | l :: r :: rest => decide (r.length ≤ l.length) && sortedDesc (r :: rest)

/-- Embeds `prove` (source lines 16–61): check the length ordering, read the first
oracle's log-length, run the commit phase, grind the proof of work, run the
query phase, and assemble the proof. -/
def prove {F Com PD OP W IP : Type} [Add F] (g : FriGenericConfig F)
    (cfg : FriConfig F Com PD OP) (ch : Challenger F Com W) (fuel : Nat)
    (inputs : List (List F)) (st : List (TEvent F Com W)) (openInput : Nat → IP) :
    Except FriError (FriProof F Com W IP OP) × List (TEvent F Com W) :=
  if sortedDesc inputs then
    match inputs with
    | [] => (Except.error FriError.emptyInput, st)
    | i0 :: rest =>
      match log2Strict i0.length with
      | Except.error e => (Except.error e, st)
      | Except.ok logMaxHeight =>
        match commitPhase g cfg ch fuel (i0 :: rest) st with
        | (Except.error e, st1) => (Except.error e, st1)
        | (Except.ok cpr, st1) =>
          let pw := ch.grind cfg.proofOfWorkBits st1
          match queryLoop g cfg ch openInput cpr.data logMaxHeight cfg.numQueries pw.2 with
          | (Except.error e, st3) => (Except.error e, st3)
          | (Except.ok qps, st3) =>
            (Except.ok ⟨cpr.commits, qps, cpr.final_poly, pw.1⟩, st3)
  else (Except.error FriError.notSorted, st)

/-! ### Concrete collaborators used to instantiate theorems on closed inputs -/

/-- A concrete commitment scheme: the commitment is the matrix's value count,
the retained prover data is the matrix itself, and opening row `i` returns the
`i`-th consecutive pair of values. -/
def mmcsH : Mmcs Nat Nat (RowMajorMatrix Nat) Nat where
  commitMatrix := fun m => (m.values.length, m)
  getMatrices := fun pd => [pd]
  openBatch := fun i pd => ([(pd.values.drop (2 * i)).take 2], i)

/-- A concrete deterministic challenger whose responses depend on the
transcript history. -/
def chH : Challenger Nat Nat Nat where
  sampleFn := fun st => st.length
  sampleBitsFn := fun _ _ => 0
  grindFn := fun b st => b + st.length

/-- A second concrete challenger with different responses. -/
def chH2 : Challenger Nat Nat Nat where
  sampleFn := fun _ => 5
  sampleBitsFn := fun _ _ => 1
  grindFn := fun _ _ => 9

/-- A concrete fold strategy that exactly halves: it keeps the even-position
entries shifted by the challenge, and contributes one extra query index bit. -/
def gH : FriGenericConfig Nat where
  extraQueryIndexBits := 1
  foldMatrix := fun beta m =>
    (List.range (m.values.length / 2)).map (fun i => m.values.getD (2 * i) 0 + beta)

/-- A concrete configuration with `max(blowup, final_poly_len) = 2`. -/
def cfgH : FriConfig Nat Nat (RowMajorMatrix Nat) Nat where
  blowup := 2
  finalPolyLen := 2
  numQueries := 1
  proofOfWorkBits := 3
  mmcs := mmcsH

/-- A concrete configuration with `max(blowup, final_poly_len) = 4`. -/
def cfgB : FriConfig Nat Nat (RowMajorMatrix Nat) Nat where
  blowup := 4
  finalPolyLen := 2
  numQueries := 2
  proofOfWorkBits := 1
  mmcs := mmcsH

/-- A commitment scheme whose `open_batch` always returns a single row of
length 3, violating the pairs invariant. -/
def mmcsBad : Mmcs Nat Nat (RowMajorMatrix Nat) Nat where
  commitMatrix := fun m => (m.values.length, m)
  getMatrices := fun pd => [pd]
  openBatch := fun i _ => ([[7, 8, 9]], i)

/-- A configuration carrying the malformed commitment scheme. -/
def cfgBad : FriConfig Nat Nat (RowMajorMatrix Nat) Nat where
  blowup := 2
  finalPolyLen := 2
  numQueries := 1
  proofOfWorkBits := 0
  mmcs := mmcsBad

/-- A commitment scheme that is malformed only non-uniformly: opening a
retained matrix with exactly 4 values returns two rows (a wrong row count),
while every other opening returns the correct single pair. -/
def mmcsBad2 : Mmcs Nat Nat (RowMajorMatrix Nat) Nat where
  commitMatrix := fun m => (m.values.length, m)
  getMatrices := fun pd => [pd]
  openBatch := fun i pd =>
    if pd.values.length = 4 then ((pd.values.drop (2 * i)).take 2 :: [[9, 9]], i)
    else ([(pd.values.drop (2 * i)).take 2], i)

/-- A configuration carrying the non-uniformly malformed commitment scheme. -/
def cfgBad2 : FriConfig Nat Nat (RowMajorMatrix Nat) Nat where
  blowup := 2
  finalPolyLen := 2
  numQueries := 1
  proofOfWorkBits := 0
  mmcs := mmcsBad2

/-! ### Helper lemmas -/

section Lemmas

variable {F Com PD OP W IP : Type}
variable {g : FriGenericConfig F} {cfg : FriConfig F Com PD OP} {ch : Challenger F Com W}

/-- The loop guard is false exactly when the working vector is short enough
and no pending input remains. -/
theorem cpGuard_eq_false {s : CPState F Com PD} :
    cpGuard cfg s = false ↔
      s.folded.length ≤ max cfg.blowup cfg.finalPolyLen ∧ s.pending = [] := by
  constructor
  · intro h
    refine ⟨Nat.not_lt.mp fun hlt => ?_, ?_⟩
    · rw [cpGuard, decide_eq_true hlt, Bool.true_or] at h
      cases h
    · cases hp : s.pending with
      | nil => rfl
      | cons v rest => rw [cpGuard, hp] at h; simp at h
  · rintro ⟨h1, h2⟩
    have hn : ¬ (max cfg.blowup cfg.finalPolyLen < s.folded.length) := Nat.not_lt.mpr h1
    rw [cpGuard, h2]
    simp [hn]

/-- The function `addAssign` preserves the length of its first argument. -/
theorem addAssign_length [Add F] (a v : List F) : (addAssign a v).length = a.length := by
  simp only [addAssign, List.length_append, List.length_zipWith, List.length_drop]
  omega

/-- The function `addAssign` is elementwise addition on the common prefix. -/
theorem addAssign_getElem [Add F] :
    ∀ (a v : List F) (i : Nat) (x y : F), a[i]? = some x → v[i]? = some y →
      (addAssign a v)[i]? = some (x + y) := by
  intro a
  induction a with
  | nil => intro v i x y hx; simp at hx
  | cons c a ih =>
    intro v i x y hx hy
    cases v with
    | nil => simp at hy
    | cons d v =>
      cases i with
      | zero =>
        simp only [List.getElem?_cons_zero, Option.some.injEq] at hx hy
        subst hx; subst hy
        simp [addAssign]
      | succ i =>
        simp only [List.getElem?_cons_succ] at hx hy
        have hstep : addAssign (c :: a) (d :: v) = (c + d) :: addAssign a v := by
          simp [addAssign]
        rw [hstep, List.getElem?_cons_succ]
        exact ih v i x y hx hy

/-- The function `log2Strict` succeeds exactly on powers of two, returning the exponent. -/
theorem log2Strict_ok_iff (n k : Nat) : log2Strict n = Except.ok k ↔ n = 2 ^ k := by
  constructor
  · intro h
    unfold log2Strict at h
    rcases hf : (List.range (n + 1)).find? (fun k => 2 ^ k == n) with _ | k1
    · rw [hf] at h; cases h
    · rw [hf] at h
      cases h
      have h2 := List.find?_some hf
      simp at h2
      exact h2.symm
  · rintro rfl
    have hk_mem : k ∈ List.range (2 ^ k + 1) := by
      rw [List.mem_range]
      exact Nat.lt_succ_of_lt (Nat.lt_two_pow k)
    have hsome : ((List.range (2 ^ k + 1)).find? (fun j => 2 ^ j == 2 ^ k)).isSome := by
      rw [List.find?_isSome]
      exact ⟨k, hk_mem, by simp⟩
    obtain ⟨k1, hk1⟩ := Option.isSome_iff_exists.mp hsome
    have hpk1 : 2 ^ k1 = 2 ^ k := by simpa using List.find?_some hk1
    have hkk : k1 = k := Nat.pow_right_injective (by norm_num) hpk1
    unfold log2Strict
    rw [hk1, hkk]

/-- The precondition check accepts exactly the lists with non-increasing
lengths (in particular, it does not demand strict decrease). -/
theorem sortedDesc_iff_chain :
    ∀ (inputs : List (List F)),
      sortedDesc inputs = true ↔ List.Chain' (fun l r => r.length ≤ l.length) inputs := by
  intro inputs
  induction inputs with
  | nil => simp [sortedDesc]
  | cons l rest ih =>
    cases rest with
    | nil => simp [sortedDesc]
    | cons r rest =>
      rw [List.chain'_cons, ← ih]
      simp [sortedDesc, Bool.and_eq_true]

/-- The only error the loop body can produce is `noMatrices`. -/
theorem commitPhaseBody_error [Add F] {s : CPState F Com PD} {st : List (TEvent F Com W)}
    {e : FriError} {st1 : List (TEvent F Com W)}
    (h : commitPhaseBody g cfg ch s st = (Except.error e, st1)) : e = FriError.noMatrices := by
  simp only [commitPhaseBody] at h
  rcases hlv : (cfg.mmcs.getMatrices
      (cfg.mmcs.commitMatrix (RowMajorMatrix.new s.folded 2)).2).getLast? with _ | lv
  · rw [hlv] at h
    simp only [Prod.mk.injEq, Except.error.injEq] at h
    exact h.1.symm
  · rw [hlv] at h
    rcases hp : s.pending with _ | ⟨v, rest⟩ <;> rw [hp] at h
    · simp at h
    · by_cases hlen : v.length =
        (g.foldMatrix (ch.sample (ch.observe st
          (cfg.mmcs.commitMatrix (RowMajorMatrix.new s.folded 2)).1)).1 lv).length <;>
        simp [hlen] at h

/-- Characterization of a successful loop body step: the commitment, the
sampled challenge, the retrieved matrix, the transcript events, the appended
commitment and data, and the three possible mixing outcomes. -/
theorem commitPhaseBody_ok [Add F] {s s1 : CPState F Com PD} {st st1 : List (TEvent F Com W)}
    (h : commitPhaseBody g cfg ch s st = (Except.ok s1, st1)) :
    ∃ c pd beta lv,
      cfg.mmcs.commitMatrix (RowMajorMatrix.new s.folded 2) = (c, pd) ∧
      beta = ch.sampleFn (st ++ [TEvent.observe c]) ∧
      (cfg.mmcs.getMatrices pd).getLast? = some lv ∧
      st1 = st ++ [TEvent.observe c, TEvent.sample beta] ∧
      s1.commits = s.commits ++ [c] ∧ s1.data = s.data ++ [pd] ∧
      ((s.pending = [] ∧ s1.folded = g.foldMatrix beta lv ∧ s1.pending = []) ∨
       (∃ v rest, s.pending = v :: rest ∧ v.length = (g.foldMatrix beta lv).length ∧
          s1.folded = addAssign (g.foldMatrix beta lv) v ∧ s1.pending = rest) ∨
       (∃ v rest, s.pending = v :: rest ∧ v.length ≠ (g.foldMatrix beta lv).length ∧
          s1.folded = g.foldMatrix beta lv ∧ s1.pending = v :: rest)) := by
  simp only [commitPhaseBody] at h
  rcases hlv : (cfg.mmcs.getMatrices
      (cfg.mmcs.commitMatrix (RowMajorMatrix.new s.folded 2)).2).getLast? with _ | lv
  · simp only [hlv] at h
    simp at h
  · simp only [hlv] at h
    refine ⟨(cfg.mmcs.commitMatrix (RowMajorMatrix.new s.folded 2)).1,
      (cfg.mmcs.commitMatrix (RowMajorMatrix.new s.folded 2)).2,
      ch.sampleFn (st ++ [TEvent.observe
        (cfg.mmcs.commitMatrix (RowMajorMatrix.new s.folded 2)).1]),
      lv, rfl, rfl, hlv, ?_⟩
    rcases hp : s.pending with _ | ⟨v, rest⟩
    · simp only [hp, Prod.mk.injEq, Except.ok.injEq] at h
      obtain ⟨hs, hst⟩ := h
      subst hs; subst hst
      exact ⟨by simp [Challenger.observe, Challenger.sample], rfl, rfl,
        Or.inl ⟨rfl, by simp [Challenger.observe, Challenger.sample], rfl⟩⟩
    · simp only [hp] at h
      by_cases hlen : v.length =
        (g.foldMatrix (ch.sample (ch.observe st
          (cfg.mmcs.commitMatrix (RowMajorMatrix.new s.folded 2)).1)).1 lv).length
      · rw [if_pos hlen] at h
        simp only [Prod.mk.injEq, Except.ok.injEq] at h
        obtain ⟨hs, hst⟩ := h
        subst hs; subst hst
        refine ⟨by simp [Challenger.observe, Challenger.sample], rfl, rfl,
          Or.inr (Or.inl ⟨v, rest, rfl, ?_, by simp [Challenger.observe, Challenger.sample], rfl⟩)⟩
        simpa [Challenger.observe, Challenger.sample] using hlen
      · rw [if_neg hlen] at h
        simp only [Prod.mk.injEq, Except.ok.injEq] at h
        obtain ⟨hs, hst⟩ := h
        subst hs; subst hst
        refine ⟨by simp [Challenger.observe, Challenger.sample], rfl, rfl,
          Or.inr (Or.inr ⟨v, rest, rfl, ?_, by simp [Challenger.observe, Challenger.sample], rfl⟩)⟩
        simpa [Challenger.observe, Challenger.sample] using hlen

/-- Full characterization of a successful run of the commit-phase loop: the
guard is false at exit, the new transcript events are one observe/sample pair
per round, the commitments are the observed ones in order, and one prover-data
handle is retained per round. -/
theorem commitPhaseLoop_ok_spec [Add F] :
    ∀ (fuel : Nat) (s : CPState F Com PD) (st : List (TEvent F Com W)) {s' : CPState F Com PD}
      {st' : List (TEvent F Com W)},
      commitPhaseLoop g cfg ch fuel s st = (Except.ok s', st') →
      cpGuard cfg s' = false ∧
      ∃ ps : List (Com × F),
        st' = st ++ (ps.map (fun q => [TEvent.observe q.1, TEvent.sample q.2])).flatten ∧
        s'.commits = s.commits ++ ps.map Prod.fst ∧
        s'.data.length = s.data.length + ps.length := by
  intro fuel
  induction fuel with
  | zero =>
    intro s st s' st' h
    simp only [commitPhaseLoop] at h
    by_cases hg : cpGuard cfg s = true
    · rw [if_pos hg] at h; simp at h
    · rw [if_neg hg] at h
      simp only [Prod.mk.injEq, Except.ok.injEq] at h
      obtain ⟨rfl, rfl⟩ := h
      exact ⟨by simpa using hg, [], by simp, by simp, by simp⟩
  | succ n ih =>
    intro s st s' st' h
    simp only [commitPhaseLoop] at h
    by_cases hg : cpGuard cfg s = true
    · rw [if_pos hg] at h
      rcases hb : commitPhaseBody g cfg ch s st with ⟨res, st1⟩
      cases res with
      | error e => simp only [hb] at h; simp at h
      | ok s1 =>
        simp only [hb] at h
        obtain ⟨hg', ps', hst', hcom', hdata'⟩ := ih s1 st1 h
        obtain ⟨c, pd, beta, lv, hcp, hbeta, hlv, hst1, hcom1, hdata1, hmix⟩ :=
          commitPhaseBody_ok hb
        refine ⟨hg', (c, beta) :: ps', ?_, ?_, ?_⟩
        · rw [hst', hst1]; simp
        · rw [hcom', hcom1]; simp
        · rw [hdata', hdata1]; simp [List.length_append]; omega
    · rw [if_neg hg] at h
      simp only [Prod.mk.injEq, Except.ok.injEq] at h
      obtain ⟨rfl, rfl⟩ := h
      exact ⟨by simpa using hg, [], by simp, by simp, by simp⟩

/-- The only errors the commit-phase loop can produce are fuel exhaustion (a
nonterminated run) and `noMatrices`. -/
theorem commitPhaseLoop_error [Add F] :
    ∀ (fuel : Nat) (s : CPState F Com PD) (st : List (TEvent F Com W)) {e : FriError}
      {st' : List (TEvent F Com W)},
      commitPhaseLoop g cfg ch fuel s st = (Except.error e, st') →
      e = FriError.fuelExhausted ∨ e = FriError.noMatrices := by
  intro fuel
  induction fuel with
  | zero =>
    intro s st e st' h
    simp only [commitPhaseLoop] at h
    by_cases hg : cpGuard cfg s = true
    · rw [if_pos hg] at h
      simp only [Prod.mk.injEq, Except.error.injEq] at h
      exact Or.inl h.1.symm
    · rw [if_neg hg] at h; simp at h
  | succ n ih =>
    intro s st e st' h
    simp only [commitPhaseLoop] at h
    by_cases hg : cpGuard cfg s = true
    · rw [if_pos hg] at h
      rcases hb : commitPhaseBody g cfg ch s st with ⟨res, st1⟩
      cases res with
      | error e1 =>
        simp only [hb] at h
        simp only [Prod.mk.injEq, Except.error.injEq] at h
        obtain ⟨rfl, rfl⟩ := h
        exact Or.inr (commitPhaseBody_error hb)
      | ok s1 =>
        simp only [hb] at h
        exact ih s1 st1 h
    · rw [if_neg hg] at h; simp at h

/-- Inversion of a successful `commitPhase`: the input was nonempty and the
loop ran from the first oracle with the rest pending. -/
theorem commitPhase_ok [Add F] {fuel : Nat} {inputs : List (List F)}
    {st : List (TEvent F Com W)} {cpr : CommitPhaseResult F Com PD}
    {st' : List (TEvent F Com W)}
    (h : commitPhase g cfg ch fuel inputs st = (Except.ok cpr, st')) :
    ∃ i0 rest s', inputs = i0 :: rest ∧
      commitPhaseLoop g cfg ch fuel ⟨i0, rest, [], []⟩ st = (Except.ok s', st') ∧
      cpr = ⟨s'.commits, s'.data, s'.folded⟩ := by
  cases inputs with
  | nil => simp [commitPhase] at h
  | cons i0 rest =>
    simp only [commitPhase] at h
    rcases hl : commitPhaseLoop g cfg ch fuel ⟨i0, rest, [], []⟩ st with ⟨res, st1⟩
    cases res with
    | error e => simp only [hl] at h; simp at h
    | ok s1 =>
      simp only [hl] at h
      simp only [Prod.mk.injEq, Except.ok.injEq] at h
      obtain ⟨rfl, rfl⟩ := h
      exact ⟨i0, rest, s1, rfl, hl, rfl⟩

/-- Error classification for `commitPhase`: `emptyInput` happens exactly on
the empty input list (with the transcript untouched); otherwise only the loop
errors can occur. -/
theorem commitPhase_error [Add F] {fuel : Nat} {inputs : List (List F)}
    {st : List (TEvent F Com W)} {e : FriError} {st' : List (TEvent F Com W)}
    (h : commitPhase g cfg ch fuel inputs st = (Except.error e, st')) :
    (inputs = [] ∧ e = FriError.emptyInput ∧ st' = st) ∨
    (inputs ≠ [] ∧ (e = FriError.fuelExhausted ∨ e = FriError.noMatrices)) := by
  cases inputs with
  | nil =>
    simp only [commitPhase] at h
    simp only [Prod.mk.injEq, Except.error.injEq] at h
    exact Or.inl ⟨rfl, h.1.symm, h.2.symm⟩
  | cons i0 rest =>
    simp only [commitPhase] at h
    rcases hl : commitPhaseLoop g cfg ch fuel ⟨i0, rest, [], []⟩ st with ⟨res, st1⟩
    cases res with
    | error e1 =>
      simp only [hl] at h
      simp only [Prod.mk.injEq, Except.error.injEq] at h
      obtain ⟨rfl, rfl⟩ := h
      exact Or.inr ⟨by simp, commitPhaseLoop_error fuel _ st hl⟩
    | ok s1 => simp only [hl] at h; simp at h

/-- Full characterization of a successful `answerQueryAux` run starting at
round `j`: one step per retained round, and for each round `j + i` the opened
row, the sibling selection and the recorded opening proof are as computed by
the source. -/
theorem answerQueryAux_ok :
    ∀ (data : List PD) (j idx : Nat) {steps : List (CommitPhaseProofStep F OP)},
      answerQueryAux cfg j data idx = Except.ok steps →
      steps.length = data.length ∧
      ∀ i pd, data[i]? = some pd →
        ∃ row op step,
          cfg.mmcs.openBatch ((idx >>> (j + i)) >>> 1) pd = ([row], op) ∧
          row.length = 2 ∧ steps[i]? = some step ∧
          row[((idx >>> (j + i)) ^^^ 1) % 2]? = some step.sibling_value ∧
          step.opening_proof = op := by
  intro data
  induction data with
  | nil =>
    intro j idx steps h
    simp only [answerQueryAux] at h
    cases h
    exact ⟨rfl, by intro i pd hpd; simp at hpd⟩
  | cons pd0 rest ih =>
    intro j idx steps h
    simp only [answerQueryAux] at h
    rcases hob : cfg.mmcs.openBatch (idx >>> j >>> 1) pd0 with ⟨rows, op⟩
    simp only [hob] at h
    cases rows with
    | nil => simp at h
    | cons row rows2 =>
      cases rows2 with
      | cons r2 rs => rw [if_neg (by simp)] at h; cases h
      | nil =>
        rw [if_pos (show ([row] : List (List F)).length = 1 from rfl)] at h
        simp only [List.getLast?_singleton] at h
        by_cases h2 : row.length = 2
        · rw [if_pos h2] at h
          have hlt : ((idx >>> j) ^^^ 1) % 2 < row.length := by
            rw [h2]; exact Nat.mod_lt _ (by norm_num)
          have hsv : row[((idx >>> j) ^^^ 1) % 2]? = some (row.get ⟨((idx >>> j) ^^^ 1) % 2, hlt⟩) :=
            List.getElem?_eq_getElem hlt
          simp only [hsv] at h
          rcases haux : answerQueryAux cfg (j + 1) rest idx with e1 | steps1
          · simp only [haux] at h; cases h
          · simp only [haux] at h
            simp only [Except.ok.injEq] at h
            subst h
            obtain ⟨hlen1, hspec1⟩ := ih (j + 1) idx haux
            refine ⟨by simp [hlen1], ?_⟩
            intro i pd hpd
            cases i with
            | zero =>
              simp only [List.getElem?_cons_zero, Option.some.injEq] at hpd
              subst hpd
              refine ⟨row, op, ⟨row.get ⟨((idx >>> j) ^^^ 1) % 2, hlt⟩, op⟩, ?_, h2, by simp, ?_, rfl⟩
              · simpa using hob
              · simpa using hsv
            | succ i =>
              simp only [List.getElem?_cons_succ] at hpd
              obtain ⟨row1, op1, step1, hob1, hrl1, hstep1, hsv1, hop1⟩ := hspec1 i pd hpd
              have hadd : j + (i + 1) = (j + 1) + i := by omega
              refine ⟨row1, op1, step1, ?_, hrl1, by simpa using hstep1, ?_, hop1⟩
              · rw [hadd]; exact hob1
              · rw [hadd]; exact hsv1
        · rw [if_neg h2] at h; cases h

/-- The only errors `answerQueryAux` can produce are the opened-row shape
violations. -/
theorem answerQueryAux_error :
    ∀ (data : List PD) (j idx : Nat) {e : FriError},
      answerQueryAux cfg j data idx = Except.error e →
      e = FriError.badRowCount ∨ e = FriError.badRowLength ∨ e = FriError.rowEntryMissing := by
  intro data
  induction data with
  | nil => intro j idx e h; simp [answerQueryAux] at h
  | cons pd0 rest ih =>
    intro j idx e h
    simp only [answerQueryAux] at h
    rcases hob : cfg.mmcs.openBatch (idx >>> j >>> 1) pd0 with ⟨rows, op⟩
    simp only [hob] at h
    by_cases h1 : rows.length = 1
    · rw [if_pos h1] at h
      rcases hlast : rows.getLast? with _ | row
      · simp only [hlast] at h
        simp only [Except.error.injEq] at h
        exact Or.inl h.symm
      · simp only [hlast] at h
        by_cases h2 : row.length = 2
        · rw [if_pos h2] at h
          rcases hsv : row[((idx >>> j) ^^^ 1) % 2]? with _ | sv
          · simp only [hsv] at h
            simp only [Except.error.injEq] at h
            exact Or.inr (Or.inr h.symm)
          · simp only [hsv] at h
            rcases haux : answerQueryAux cfg (j + 1) rest idx with e1 | steps1
            · simp only [haux] at h
              simp only [Except.error.injEq] at h
              exact h ▸ ih (j + 1) idx haux
            · simp only [haux] at h; cases h
        · rw [if_neg h2] at h
          simp only [Except.error.injEq] at h
          exact Or.inr (Or.inl h.symm)
    · rw [if_neg h1] at h
      simp only [Except.error.injEq] at h
      exact Or.inl h.symm

/-- Full characterization of a successful query loop: exactly `n` sampled
indices, all at the same bit width, one `sample_bits` event each, and each
query proof built from the input opening and the answered query at the index
with the extra bits stripped. -/
theorem queryLoop_ok {oi : Nat → IP} {data : List PD} {lmh : Nat} :
    ∀ (n : Nat) (st : List (TEvent F Com W)) {qps : List (QueryProof F IP OP)}
      {st' : List (TEvent F Com W)},
      queryLoop g cfg ch oi data lmh n st = (Except.ok qps, st') →
      ∃ idxs : List Nat,
        idxs.length = n ∧ qps.length = n ∧
        st' = st ++ idxs.map (fun v => TEvent.sampleBits (lmh + g.extraQueryIndexBits) v) ∧
        ∀ (k idx : Nat), idxs[k]? = some idx →
          ∃ steps, answerQuery cfg data (idx >>> g.extraQueryIndexBits) = Except.ok steps ∧
            qps[k]? = some (QueryProof.mk (oi idx) steps) := by
  intro n
  induction n with
  | zero =>
    intro st qps st' h
    simp only [queryLoop] at h
    simp only [Prod.mk.injEq, Except.ok.injEq] at h
    obtain ⟨rfl, rfl⟩ := h
    exact ⟨[], rfl, rfl, by simp, by intro k idx hk; simp at hk⟩
  | succ n ih =>
    intro st qps st' h
    simp only [queryLoop, Challenger.sampleBits] at h
    rcases haq : answerQuery cfg data
        (ch.sampleBitsFn (lmh + g.extraQueryIndexBits) st >>> g.extraQueryIndexBits)
      with e | steps
    · simp only [haq] at h; simp at h
    · simp only [haq] at h
      rcases hql : queryLoop g cfg ch oi data lmh n
          (st ++ [TEvent.sampleBits (lmh + g.extraQueryIndexBits)
            (ch.sampleBitsFn (lmh + g.extraQueryIndexBits) st)]) with ⟨res2, st2⟩
      cases res2 with
      | error e => simp only [hql] at h; simp at h
      | ok qps1 =>
        simp only [hql] at h
        simp only [Prod.mk.injEq, Except.ok.injEq] at h
        obtain ⟨rfl, rfl⟩ := h
        obtain ⟨idxs, hlen, hqlen, hst, hspec⟩ := ih _ hql
        refine ⟨ch.sampleBitsFn (lmh + g.extraQueryIndexBits) st :: idxs,
          by simp [hlen], by simp [hqlen], ?_, ?_⟩
        · rw [hst]; simp
        · intro k idx hk
          cases k with
          | zero =>
            simp only [List.getElem?_cons_zero, Option.some.injEq] at hk
            subst hk
            exact ⟨steps, haq, by simp⟩
          | succ k =>
            simp only [List.getElem?_cons_succ] at hk
            obtain ⟨steps1, ha1, hq1⟩ := hspec k idx hk
            exact ⟨steps1, ha1, by simpa using hq1⟩

/-- The only errors the query loop can produce are the opened-row shape
violations. -/
theorem queryLoop_error {oi : Nat → IP} {data : List PD} {lmh : Nat} :
    ∀ (n : Nat) (st : List (TEvent F Com W)) {e : FriError} {st' : List (TEvent F Com W)},
      queryLoop g cfg ch oi data lmh n st = (Except.error e, st') →
      e = FriError.badRowCount ∨ e = FriError.badRowLength ∨ e = FriError.rowEntryMissing := by
  intro n
  induction n with
  | zero => intro st e st' h; simp [queryLoop] at h
  | succ n ih =>
    intro st e st' h
    simp only [queryLoop, Challenger.sampleBits] at h
    rcases haq : answerQuery cfg data
        (ch.sampleBitsFn (lmh + g.extraQueryIndexBits) st >>> g.extraQueryIndexBits)
      with e1 | steps
    · simp only [haq] at h
      simp only [Prod.mk.injEq, Except.error.injEq] at h
      exact h.1 ▸ answerQueryAux_error data 0 _ haq
    · simp only [haq] at h
      rcases hql : queryLoop g cfg ch oi data lmh n
          (st ++ [TEvent.sampleBits (lmh + g.extraQueryIndexBits)
            (ch.sampleBitsFn (lmh + g.extraQueryIndexBits) st)]) with ⟨res2, st2⟩
      cases res2 with
      | error e2 =>
        simp only [hql] at h
        simp only [Prod.mk.injEq, Except.error.injEq] at h
        exact h.1 ▸ ih _ hql
      | ok qps1 => simp only [hql] at h; simp at h

/-- Inversion of a successful `prove`: the phases that ran, in order, with
their intermediate transcript states. -/
theorem prove_ok [Add F] {fuel : Nat} {inputs : List (List F)} {st : List (TEvent F Com W)}
    {oi : Nat → IP} {p : FriProof F Com W IP OP} {st' : List (TEvent F Com W)}
    (h : prove g cfg ch fuel inputs st oi = (Except.ok p, st')) :
    ∃ i0 rest lmh cpr st1 qps,
      inputs = i0 :: rest ∧ sortedDesc inputs = true ∧
      log2Strict i0.length = Except.ok lmh ∧
      commitPhase g cfg ch fuel inputs st = (Except.ok cpr, st1) ∧
      queryLoop g cfg ch oi cpr.data lmh cfg.numQueries
          (st1 ++ [TEvent.grind cfg.proofOfWorkBits (ch.grindFn cfg.proofOfWorkBits st1)])
        = (Except.ok qps, st') ∧
      p = ⟨cpr.commits, qps, cpr.final_poly, ch.grindFn cfg.proofOfWorkBits st1⟩ := by
  by_cases hs : sortedDesc inputs = true
  · cases inputs with
    | nil =>
      unfold prove at h
      rw [if_pos hs] at h
      simp at h
    | cons i0 rest =>
      unfold prove at h
      rw [if_pos hs] at h
      rcases hlg : log2Strict i0.length with e | lmh
      · simp only [hlg] at h; simp at h
      · simp only [hlg] at h
        rcases hcp : commitPhase g cfg ch fuel (i0 :: rest) st with ⟨rescp, st1⟩
        cases rescp with
        | error e => simp only [hcp] at h; simp at h
        | ok cpr =>
          simp only [hcp, Challenger.grind] at h
          rcases hql : queryLoop g cfg ch oi cpr.data lmh cfg.numQueries
              (st1 ++ [TEvent.grind cfg.proofOfWorkBits
                (ch.grindFn cfg.proofOfWorkBits st1)]) with ⟨resq, st3⟩
          cases resq with
          | error e => simp only [hql] at h; simp at h
          | ok qps =>
            simp only [hql] at h
            simp only [Prod.mk.injEq, Except.ok.injEq] at h
            obtain ⟨rfl, rfl⟩ := h
            exact ⟨i0, rest, lmh, cpr, st1, qps, rfl, hs, hlg, rfl, hql, rfl⟩
  · unfold prove at h
    rw [if_neg hs] at h
    simp at h

/-- The function `log2Strict` can only fail with `logNotStrict`. -/
theorem log2Strict_error {n : Nat} {e : FriError} (h : log2Strict n = Except.error e) :
    e = FriError.logNotStrict := by
  unfold log2Strict at h
  rcases hf : (List.range (n + 1)).find? (fun k => 2 ^ k == n) with _ | k1 <;> rw [hf] at h
  · cases h; rfl
  · cases h

/-- The function `log2Strict` succeeds exactly when its argument is a power of two. -/
theorem log2Strict_ok_exists_iff (n : Nat) :
    (∃ k, log2Strict n = Except.ok k) ↔ ∃ k, n = 2 ^ k := by
  constructor
  · rintro ⟨k, hk⟩
    exact ⟨k, (log2Strict_ok_iff n k).mp hk⟩
  · rintro ⟨k, hk⟩
    exact ⟨k, (log2Strict_ok_iff n k).mpr hk⟩

/-- Error classification for `prove`: `emptyInput` only on the empty list, and
otherwise one of the named panic sites. -/
theorem prove_error [Add F] {fuel : Nat} {inputs : List (List F)}
    {st : List (TEvent F Com W)} {oi : Nat → IP} {e : FriError}
    {st' : List (TEvent F Com W)}
    (h : prove g cfg ch fuel inputs st oi = (Except.error e, st')) :
    (inputs = [] ∧ e = FriError.emptyInput) ∨
    e = FriError.notSorted ∨ e = FriError.logNotStrict ∨
    e = FriError.fuelExhausted ∨ e = FriError.noMatrices ∨
    e = FriError.badRowCount ∨ e = FriError.badRowLength ∨ e = FriError.rowEntryMissing := by
  by_cases hs : sortedDesc inputs = true
  · cases inputs with
    | nil =>
      unfold prove at h
      rw [if_pos hs] at h
      simp only [Prod.mk.injEq, Except.error.injEq] at h
      exact Or.inl ⟨rfl, h.1.symm⟩
    | cons i0 rest =>
      unfold prove at h
      rw [if_pos hs] at h
      rcases hlg : log2Strict i0.length with e1 | lmh
      · simp only [hlg] at h
        simp only [Prod.mk.injEq, Except.error.injEq] at h
        exact Or.inr (Or.inr (Or.inl (h.1 ▸ log2Strict_error hlg)))
      · simp only [hlg] at h
        rcases hcp : commitPhase g cfg ch fuel (i0 :: rest) st with ⟨rescp, st1⟩
        cases rescp with
        | error e1 =>
          simp only [hcp] at h
          simp only [Prod.mk.injEq, Except.error.injEq] at h
          rcases commitPhase_error hcp with ⟨hnil, _, _⟩ | ⟨_, hcase⟩
          · cases hnil
          · rcases hcase with h1 | h1 <;> rw [← h.1, h1]
            · exact Or.inr (Or.inr (Or.inr (Or.inl rfl)))
            · exact Or.inr (Or.inr (Or.inr (Or.inr (Or.inl rfl))))
        | ok cpr =>
          simp only [hcp, Challenger.grind] at h
          rcases hql : queryLoop g cfg ch oi cpr.data lmh cfg.numQueries
              (st1 ++ [TEvent.grind cfg.proofOfWorkBits
                (ch.grindFn cfg.proofOfWorkBits st1)]) with ⟨resq, st3⟩
          cases resq with
          | error e1 =>
            simp only [hql] at h
            simp only [Prod.mk.injEq, Except.error.injEq] at h
            rcases queryLoop_error cfg.numQueries _ hql with h1 | h1 | h1 <;> rw [← h.1, h1]
            · exact Or.inr (Or.inr (Or.inr (Or.inr (Or.inr (Or.inl rfl)))))
            · exact Or.inr (Or.inr (Or.inr (Or.inr (Or.inr (Or.inr (Or.inl rfl))))))
            · exact Or.inr (Or.inr (Or.inr (Or.inr (Or.inr (Or.inr (Or.inr rfl))))))
          | ok qps => simp only [hql] at h; simp at h
  · unfold prove at h
    rw [if_neg hs] at h
    simp only [Prod.mk.injEq, Except.error.injEq] at h
    exact Or.inr (Or.inl h.1.symm)

/-- Once the precondition check and the first-length check have passed, the
only failures left are the internal ones. -/
theorem prove_error_refined [Add F] {fuel : Nat} {inputs : List (List F)}
    {st : List (TEvent F Com W)} {oi : Nat → IP} {e : FriError}
    {st' : List (TEvent F Com W)} {i0 : List F} {rest : List (List F)} {lmh : Nat}
    (hs : sortedDesc inputs = true) (hinp : inputs = i0 :: rest)
    (hlg : log2Strict i0.length = Except.ok lmh)
    (h : prove g cfg ch fuel inputs st oi = (Except.error e, st')) :
    e = FriError.fuelExhausted ∨ e = FriError.noMatrices ∨
    e = FriError.badRowCount ∨ e = FriError.badRowLength ∨ e = FriError.rowEntryMissing := by
  subst hinp
  unfold prove at h
  rw [if_pos hs] at h
  simp only [hlg] at h
  rcases hcp : commitPhase g cfg ch fuel (i0 :: rest) st with ⟨rescp, st1⟩
  cases rescp with
  | error e1 =>
    simp only [hcp] at h
    simp only [Prod.mk.injEq, Except.error.injEq] at h
    rcases commitPhase_error hcp with ⟨hnil, _, _⟩ | ⟨_, hcase⟩
    · cases hnil
    · rcases hcase with h1 | h1 <;> rw [← h.1, h1]
      · exact Or.inl rfl
      · exact Or.inr (Or.inl rfl)
  | ok cpr =>
    simp only [hcp, Challenger.grind] at h
    rcases hql : queryLoop g cfg ch oi cpr.data lmh cfg.numQueries
        (st1 ++ [TEvent.grind cfg.proofOfWorkBits
          (ch.grindFn cfg.proofOfWorkBits st1)]) with ⟨resq, st3⟩
    cases resq with
    | error e1 =>
      simp only [hql] at h
      simp only [Prod.mk.injEq, Except.error.injEq] at h
      rcases queryLoop_error cfg.numQueries _ hql with h1 | h1 | h1 <;> rw [← h.1, h1]
      · exact Or.inr (Or.inr (Or.inl rfl))
      · exact Or.inr (Or.inr (Or.inr (Or.inl rfl)))
      · exact Or.inr (Or.inr (Or.inr (Or.inr rfl)))
    | ok qps => simp only [hql] at h; simp at h

/-- The loop guard depends only on the blowup, the threshold, and the lengths
of the working vector and the pending oracles. -/
theorem cpGuard_congr {Com2 PD2 OP2 : Type} {cfg1 : FriConfig F Com PD OP}
    {cfg2 : FriConfig F Com2 PD2 OP2} {s1 : CPState F Com PD} {s2 : CPState F Com2 PD2}
    (hb : cfg1.blowup = cfg2.blowup) (hf : cfg1.finalPolyLen = cfg2.finalPolyLen)
    (hfl : s1.folded.length = s2.folded.length)
    (hpl : s1.pending.map List.length = s2.pending.map List.length) :
    cpGuard cfg1 s1 = cpGuard cfg2 s2 := by
  unfold cpGuard
  rw [hb, hf, hfl]
  rcases hp1 : s1.pending with _ | ⟨v1, r1⟩ <;> rcases hp2 : s2.pending with _ | ⟨v2, r2⟩ <;>
    rw [hp1, hp2] at hpl <;> simp_all

/-- Lock-step argument: two commit-phase loop runs over configurations that
agree on the blowup and the final-polynomial threshold, whose commitment
schemes retain the committed matrix, and whose fold strategies produce output
lengths given by the same function of the input length, stay aligned on all
lengths; if both succeed from states agreeing on all lengths, they finish with
equally many commitments. -/
theorem commitPhaseLoop_lockstep [Add F] {Com2 PD2 OP2 W2 : Type}
    {g1 : FriGenericConfig F} {cfg1 : FriConfig F Com PD OP} {ch1 : Challenger F Com W}
    {g2 : FriGenericConfig F} {cfg2 : FriConfig F Com2 PD2 OP2} {ch2 : Challenger F Com2 W2}
    (hb : cfg1.blowup = cfg2.blowup) (hf : cfg1.finalPolyLen = cfg2.finalPolyLen)
    (hm1 : ∀ m, (cfg1.mmcs.getMatrices (cfg1.mmcs.commitMatrix m).2).getLast? = some m)
    (hm2 : ∀ m, (cfg2.mmcs.getMatrices (cfg2.mmcs.commitMatrix m).2).getLast? = some m)
    (lf : Nat → Nat)
    (hl1 : ∀ beta m, (g1.foldMatrix beta m).length = lf m.values.length)
    (hl2 : ∀ beta m, (g2.foldMatrix beta m).length = lf m.values.length) :
    ∀ (fuel : Nat) (s1 : CPState F Com PD) (s2 : CPState F Com2 PD2)
      (st1 : List (TEvent F Com W)) (st2 : List (TEvent F Com2 W2))
      {s1' : CPState F Com PD} {st1' : List (TEvent F Com W)}
      {s2' : CPState F Com2 PD2} {st2' : List (TEvent F Com2 W2)},
      s1.folded.length = s2.folded.length →
      s1.pending.map List.length = s2.pending.map List.length →
      s1.commits.length = s2.commits.length →
      commitPhaseLoop g1 cfg1 ch1 fuel s1 st1 = (Except.ok s1', st1') →
      commitPhaseLoop g2 cfg2 ch2 fuel s2 st2 = (Except.ok s2', st2') →
      s1'.commits.length = s2'.commits.length := by
  intro fuel
  induction fuel with
  | zero =>
    intro s1 s2 st1 st2 s1' st1' s2' st2' hfl hpl hcl h1 h2
    have hg := cpGuard_congr hb hf hfl hpl
    simp only [commitPhaseLoop] at h1 h2
    by_cases hg1 : cpGuard cfg1 s1 = true
    · rw [if_pos hg1] at h1; simp at h1
    · rw [if_neg hg1] at h1
      rw [if_neg (hg ▸ hg1)] at h2
      simp only [Prod.mk.injEq, Except.ok.injEq] at h1 h2
      obtain ⟨rfl, rfl⟩ := h1
      obtain ⟨rfl, rfl⟩ := h2
      exact hcl
  | succ n ih =>
    intro s1 s2 st1 st2 s1' st1' s2' st2' hfl hpl hcl h1 h2
    have hg := cpGuard_congr hb hf hfl hpl
    simp only [commitPhaseLoop] at h1 h2
    by_cases hg1 : cpGuard cfg1 s1 = true
    · rw [if_pos hg1] at h1
      rw [if_pos (hg ▸ hg1)] at h2
      rcases hb1 : commitPhaseBody g1 cfg1 ch1 s1 st1 with ⟨res1, stb1⟩
      cases res1 with
      | error e => simp only [hb1] at h1; simp at h1
      | ok s1b =>
        simp only [hb1] at h1
        rcases hb2 : commitPhaseBody g2 cfg2 ch2 s2 st2 with ⟨res2, stb2⟩
        cases res2 with
        | error e => simp only [hb2] at h2; simp at h2
        | ok s2b =>
          simp only [hb2] at h2
          obtain ⟨c1, pd1, beta1, lv1, hcp1, _, hlv1, _, hcom1, _, hmix1⟩ :=
            commitPhaseBody_ok hb1
          obtain ⟨c2, pd2, beta2, lv2, hcp2, _, hlv2, _, hcom2, _, hmix2⟩ :=
            commitPhaseBody_ok hb2
          have hlva : lv1 = RowMajorMatrix.new s1.folded 2 := by
            have hx := hm1 (RowMajorMatrix.new s1.folded 2)
            simp only [hcp1] at hx
            rw [hlv1] at hx
            exact Option.some_inj.mp hx
          have hlvb : lv2 = RowMajorMatrix.new s2.folded 2 := by
            have hx := hm2 (RowMajorMatrix.new s2.folded 2)
            simp only [hcp2] at hx
            rw [hlv2] at hx
            exact Option.some_inj.mp hx
          have hfold1 : (g1.foldMatrix beta1 lv1).length = lf s1.folded.length := by
            rw [hlva]; exact hl1 beta1 _
          have hfold2 : (g2.foldMatrix beta2 lv2).length = lf s2.folded.length := by
            rw [hlvb]; exact hl2 beta2 _
          have hfoldeq : (g1.foldMatrix beta1 lv1).length = (g2.foldMatrix beta2 lv2).length := by
            rw [hfold1, hfold2, hfl]
          have hcl1 : s1b.commits.length = s2b.commits.length := by
            rw [hcom1, hcom2]
            simp [hcl]
          rcases hmix1 with ⟨hp1, hf1, hq1⟩ | ⟨v1, r1, hp1, hlen1, hf1, hq1⟩ |
            ⟨v1, r1, hp1, hlen1, hf1, hq1⟩
          · rcases hmix2 with ⟨hp2, hf2, hq2⟩ | ⟨v2, r2, hp2, hlen2, hf2, hq2⟩ |
              ⟨v2, r2, hp2, hlen2, hf2, hq2⟩
            · exact ih s1b s2b stb1 stb2 (by rw [hf1, hf2]; exact hfoldeq)
                (by rw [hq1, hq2]) hcl1 h1 h2
            · rw [hp1, hp2] at hpl; simp at hpl
            · rw [hp1, hp2] at hpl; simp at hpl
          · rcases hmix2 with ⟨hp2, hf2, hq2⟩ | ⟨v2, r2, hp2, hlen2, hf2, hq2⟩ |
              ⟨v2, r2, hp2, hlen2, hf2, hq2⟩
            · rw [hp1, hp2] at hpl; simp at hpl
            · rw [hp1, hp2] at hpl
              simp only [List.map_cons, List.cons.injEq] at hpl
              obtain ⟨hvl, hrl⟩ := hpl
              refine ih s1b s2b stb1 stb2 ?_ ?_ hcl1 h1 h2
              · rw [hf1, hf2, addAssign_length, addAssign_length]; exact hfoldeq
              · rw [hq1, hq2]; exact hrl
            · rw [hp1, hp2] at hpl
              simp only [List.map_cons, List.cons.injEq] at hpl
              obtain ⟨hvl, hrl⟩ := hpl
              exact absurd (by rw [← hvl]; exact hlen1.trans hfoldeq) hlen2
          · rcases hmix2 with ⟨hp2, hf2, hq2⟩ | ⟨v2, r2, hp2, hlen2, hf2, hq2⟩ |
              ⟨v2, r2, hp2, hlen2, hf2, hq2⟩
            · rw [hp1, hp2] at hpl; simp at hpl
            · rw [hp1, hp2] at hpl
              simp only [List.map_cons, List.cons.injEq] at hpl
              obtain ⟨hvl, hrl⟩ := hpl
              exact absurd (by rw [hvl]; exact hlen2.trans hfoldeq.symm) hlen1
            · rw [hp1, hp2] at hpl
              simp only [List.map_cons, List.cons.injEq] at hpl
              obtain ⟨hvl, hrl⟩ := hpl
              refine ih s1b s2b stb1 stb2 ?_ ?_ hcl1 h1 h2
              · rw [hf1, hf2]; exact hfoldeq
              · rw [hq1, hq2]
                simp only [List.map_cons, List.cons.injEq]
                exact ⟨hvl, hrl⟩
    · rw [if_neg hg1] at h1
      rw [if_neg (hg ▸ hg1)] at h2
      simp only [Prod.mk.injEq, Except.ok.injEq] at h1 h2
      obtain ⟨rfl, rfl⟩ := h1
      obtain ⟨rfl, rfl⟩ := h2
      exact hcl

/-- If any round that `answerQueryAux` would consult (round `j + i`, on the
`i`-th retained handle) opens to anything other than exactly one row of
exactly two entries, the whole traversal fails, and it fails with one of the
two shape violations. -/
theorem answerQueryAux_bad :
    ∀ (data : List PD) (j idx i : Nat) (pd : PD),
      data[i]? = some pd →
      (¬ ∃ row, (cfg.mmcs.openBatch ((idx >>> (j + i)) >>> 1) pd).1 = [row] ∧
        row.length = 2) →
      ∃ e, answerQueryAux cfg j data idx = Except.error e ∧
        (e = FriError.badRowCount ∨ e = FriError.badRowLength) := by
  intro data
  induction data with
  | nil => intro j idx i pd hpd; simp at hpd
  | cons pd0 rest ih =>
    intro j idx i pd hpd hbadshape
    by_cases hhead : ∃ row,
        (cfg.mmcs.openBatch ((idx >>> j) >>> 1) pd0).1 = [row] ∧ row.length = 2
    · obtain ⟨row, hrow, hlen⟩ := hhead
      cases i with
      | zero =>
        simp only [List.getElem?_cons_zero, Option.some.injEq] at hpd
        subst hpd
        exact absurd ⟨row, by simpa using hrow, hlen⟩ hbadshape
      | succ i =>
        simp only [List.getElem?_cons_succ] at hpd
        have hadd : j + (i + 1) = (j + 1) + i := by omega
        rw [hadd] at hbadshape
        obtain ⟨e, herr, hcases⟩ := ih (j + 1) idx i pd hpd hbadshape
        refine ⟨e, ?_, hcases⟩
        simp only [answerQueryAux]
        rw [hrow, if_pos (show ([row] : List (List F)).length = 1 from rfl)]
        simp only [List.getLast?_singleton]
        rw [if_pos hlen]
        have hlt : ((idx >>> j) ^^^ 1) % 2 < row.length := by
          rw [hlen]; exact Nat.mod_lt _ (by norm_num)
        rw [List.getElem?_eq_getElem hlt]
        simp only [herr]
    · rcases hob : cfg.mmcs.openBatch ((idx >>> j) >>> 1) pd0 with ⟨rows, op⟩
      simp only [hob] at hhead
      cases rows with
      | nil =>
        refine ⟨FriError.badRowCount, ?_, Or.inl rfl⟩
        simp [answerQueryAux, hob]
      | cons r1 rows2 =>
        cases rows2 with
        | nil =>
          have hl2 : r1.length ≠ 2 := fun hc => hhead ⟨r1, rfl, hc⟩
          refine ⟨FriError.badRowLength, ?_, Or.inr rfl⟩
          simp only [answerQueryAux]
          simp only [hob]
          rw [if_pos (show ([r1] : List (List F)).length = 1 from rfl)]
          simp only [List.getLast?_singleton]
          rw [if_neg hl2]
        | cons r2 rs =>
          refine ⟨FriError.badRowCount, ?_, Or.inl rfl⟩
          simp only [answerQueryAux]
          simp only [hob]
          rw [if_neg (by simp)]

/-- Under a stub commitment scheme that always opens to a single row of
length 3, answering any query over a nonempty data list fails at its first
round with the pair-length violation. -/
theorem answerQuery_stub_badRowLength {cfg : FriConfig F Com PD OP}
    (hbad : ∀ (i : Nat) (pd : PD), ∃ row,
      (cfg.mmcs.openBatch i pd).1 = [row] ∧ row.length = 3) :
    ∀ (data : List PD) (idx : Nat), data ≠ [] →
      answerQuery cfg data idx = Except.error FriError.badRowLength := by
  intro data idx hne
  cases data with
  | nil => exact absurd rfl hne
  | cons pd0 rest =>
    obtain ⟨row, hrow, hlen3⟩ := hbad ((idx >>> 0) >>> 1) pd0
    show answerQueryAux cfg 0 (pd0 :: rest) idx = Except.error FriError.badRowLength
    simp only [answerQueryAux]
    rw [hrow, if_pos (show ([row] : List (List F)).length = 1 from rfl)]
    simp only [List.getLast?_singleton]
    rw [if_neg (by simp [hlen3])]

end Lemmas

/-! ### Claim theorems -/

/-- C1: the commit-phase loop body executes exactly while the working vector's
length exceeds `max(blowup, final_poly_len)` or a pending input oracle remains
(conjuncts 1–3: immediate exit exactly when the guard is false, one body step
when it holds), and consequently every successful exit has
`len(final_poly) ≤ max(blowup, final_poly_len)` and an empty pending list,
so every input oracle has been consumed (conjuncts 4–5). -/
theorem C1_commit_phase_exit {F Com PD OP W : Type} [Add F] (g : FriGenericConfig F)
    (cfg : FriConfig F Com PD OP) (ch : Challenger F Com W) :
    (∀ (fuel : Nat) (s : CPState F Com PD) (st : List (TEvent F Com W)),
        cpGuard cfg s = false → commitPhaseLoop g cfg ch fuel s st = (Except.ok s, st)) ∧
    (∀ (s : CPState F Com PD), cpGuard cfg s = false ↔
        s.folded.length ≤ max cfg.blowup cfg.finalPolyLen ∧ s.pending = []) ∧
    (∀ (fuel : Nat) (s s1 : CPState F Com PD) (st st1 : List (TEvent F Com W)),
        cpGuard cfg s = true → commitPhaseBody g cfg ch s st = (Except.ok s1, st1) →
        commitPhaseLoop g cfg ch (fuel + 1) s st = commitPhaseLoop g cfg ch fuel s1 st1) ∧
    (∀ (fuel : Nat) (s : CPState F Com PD) (st : List (TEvent F Com W))
        (s' : CPState F Com PD) (st' : List (TEvent F Com W)),
        commitPhaseLoop g cfg ch fuel s st = (Except.ok s', st') →
        s'.folded.length ≤ max cfg.blowup cfg.finalPolyLen ∧ s'.pending = []) ∧
    (∀ (fuel : Nat) (inputs : List (List F)) (st : List (TEvent F Com W))
        (cpr : CommitPhaseResult F Com PD) (st' : List (TEvent F Com W)),
        commitPhase g cfg ch fuel inputs st = (Except.ok cpr, st') →
        cpr.final_poly.length ≤ max cfg.blowup cfg.finalPolyLen) := by
  refine ⟨?_, fun s => cpGuard_eq_false, ?_, ?_, ?_⟩
  · intro fuel s st hg
    cases fuel with
    | zero =>
      simp only [commitPhaseLoop]
      rw [if_neg (by simp [hg])]
    | succ n =>
      simp only [commitPhaseLoop]
      rw [if_neg (by simp [hg])]
  · intro fuel s s1 st st1 hg hbody
    simp only [commitPhaseLoop]
    rw [if_pos hg]
    simp only [hbody]
  · intro fuel s st s' st' h
    exact cpGuard_eq_false.mp (commitPhaseLoop_ok_spec fuel s st h).1
  · intro fuel inputs st cpr st' h
    obtain ⟨i0, rest, s', hinp, hloop, hcpr⟩ := commitPhase_ok h
    have hpost := cpGuard_eq_false.mp (commitPhaseLoop_ok_spec fuel _ st hloop).1
    rw [hcpr]
    exact hpost.1

/-- Witness for C1: a concrete successful commit phase (single oracle of
length 8, `max(blowup, final_poly_len) = 2`, halving fold) reaches a final
polynomial of length 2. -/
theorem C1_witness :
    commitPhase gH cfgH chH 10 [[1, 2, 3, 4, 5, 6, 7, 8]] [] =
      (Except.ok ⟨[8, 4],
        [RowMajorMatrix.new [1, 2, 3, 4, 5, 6, 7, 8] 2, RowMajorMatrix.new [2, 4, 6, 8] 2],
        [5, 9]⟩,
       [TEvent.observe 8, TEvent.sample 1, TEvent.observe 4, TEvent.sample 3]) ∧
    (⟨[8, 4],
        [RowMajorMatrix.new [1, 2, 3, 4, 5, 6, 7, 8] 2, RowMajorMatrix.new [2, 4, 6, 8] 2],
        [5, 9]⟩ : CommitPhaseResult Nat Nat
          (RowMajorMatrix Nat)).final_poly.length ≤ max cfgH.blowup cfgH.finalPolyLen :=
  ⟨rfl, (C1_commit_phase_exit gH cfgH chH).2.2.2.2 10 [[1, 2, 3, 4, 5, 6, 7, 8]] [] _ _ rfl⟩

/-- C2: proof generation is fully deterministic in the transcript state: with
the same (deterministic) collaborators, configuration and inputs, two runs
from equal initial transcript states return identical results — in particular
identical round commitments, folding challenges, sampled query indices,
proof-of-work witness and `Proof` artifact, and identical event logs. -/
theorem C2_prove_deterministic {F Com PD OP W IP : Type} [Add F] (g : FriGenericConfig F)
    (cfg : FriConfig F Com PD OP) (ch : Challenger F Com W) (fuel : Nat)
    (inputs : List (List F)) (oi : Nat → IP) (st1 st2 : List (TEvent F Com W))
    (h : st1 = st2) :
    prove g cfg ch fuel inputs st1 oi = prove g cfg ch fuel inputs st2 oi ∧
    commitPhase g cfg ch fuel inputs st1 = commitPhase g cfg ch fuel inputs st2 := by
  subst h
  exact ⟨rfl, rfl⟩

/-- Witness for C2 at a concrete run. -/
theorem C2_witness :
    prove gH cfgH chH 10 [[1, 2, 3, 4, 5, 6, 7, 8]] [] (fun i => i) =
      prove gH cfgH chH 10 [[1, 2, 3, 4, 5, 6, 7, 8]] [] (fun i => i) :=
  (C2_prove_deterministic gH cfgH chH 10 [[1, 2, 3, 4, 5, 6, 7, 8]] (fun i => i) [] [] rfl).1

/-- C3: a successful `prove` emits exactly `num_queries` query proofs, and
every query proof contains exactly one commit-phase opening per round
commitment. -/
theorem C3_query_counts {F Com PD OP W IP : Type} [Add F] {g : FriGenericConfig F}
    {cfg : FriConfig F Com PD OP} {ch : Challenger F Com W} {fuel : Nat}
    {inputs : List (List F)} {st : List (TEvent F Com W)} {oi : Nat → IP}
    {p : FriProof F Com W IP OP} {st' : List (TEvent F Com W)}
    (h : prove g cfg ch fuel inputs st oi = (Except.ok p, st')) :
    p.query_proofs.length = cfg.numQueries ∧
    ∀ qp ∈ p.query_proofs,
      qp.commit_phase_openings.length = p.commit_phase_commits.length := by
  obtain ⟨i0, rest, lmh, cpr, st1, qps, hinp, hs, hlg, hcp, hql, hp⟩ := prove_ok h
  obtain ⟨i0x, restx, s', hinpx, hloop, hcpr⟩ := commitPhase_ok hcp
  obtain ⟨_, ps, hst, hcom, hdata⟩ := commitPhaseLoop_ok_spec fuel _ st hloop
  obtain ⟨idxs, hilen, hqlen, hqst, hspec⟩ := queryLoop_ok cfg.numQueries _ hql
  have hRdata : cpr.data.length = cpr.commits.length := by
    rw [hcpr]
    simp only [hcom, hdata]
    simp
  constructor
  · rw [hp]
    simpa using hqlen
  · intro qp hqp
    have hqp2 : qp ∈ qps := by simpa [hp] using hqp
    obtain ⟨k, hk, hkqp⟩ := List.getElem_of_mem hqp2
    have hkidx : k < idxs.length := by omega
    obtain ⟨steps, hans, hqpk⟩ :=
      hspec k idxs[k] (List.getElem?_eq_getElem hkidx)
    have hqpe : qp = QueryProof.mk (oi idxs[k]) steps := by
      have hx := List.getElem?_eq_getElem hk
      rw [hkqp, hqpk] at hx
      exact (Option.some_inj.mp hx).symm
    have hsl := (answerQueryAux_ok cpr.data 0 _ hans).1
    rw [hp, hqpe]
    simpa [hsl] using hRdata

/-- Witness for C3 at a concrete run: 1 query, 2 rounds, 2 openings. -/
theorem C3_witness :
    prove gH cfgH chH 10 [[1, 2, 3, 4, 5, 6, 7, 8]] [] (fun i => i) =
      (Except.ok ⟨[8, 4],
        [⟨0, [⟨2, 0⟩, ⟨4, 0⟩]⟩], [5, 9], 7⟩,
       [TEvent.observe 8, TEvent.sample 1, TEvent.observe 4, TEvent.sample 3,
        TEvent.grind 3 7, TEvent.sampleBits 4 0]) ∧
    (⟨[8, 4], [⟨0, [⟨2, 0⟩, ⟨4, 0⟩]⟩], [5, 9], 7⟩ :
        FriProof Nat Nat Nat Nat Nat).query_proofs.length = cfgH.numQueries :=
  ⟨rfl, (@C3_query_counts Nat Nat (RowMajorMatrix Nat) Nat Nat Nat _ gH cfgH chH 10
    [[1, 2, 3, 4, 5, 6, 7, 8]] [] (fun i => i) _ _ rfl).1⟩

/-- C7: in any successful commit-phase round, with `folded` the fold of the
committed matrix at the sampled challenge: a next pending oracle of matching
length is consumed and added elementwise into `folded`, a next pending oracle
of non-matching length is left pending with `folded` unchanged, and an empty
pending list leaves `folded` as the fold result. -/
theorem C7_mixing {F Com PD OP W : Type} [Add F] (g : FriGenericConfig F)
    (cfg : FriConfig F Com PD OP) (ch : Challenger F Com W)
    (s s1 : CPState F Com PD) (st st1 : List (TEvent F Com W))
    (h : commitPhaseBody g cfg ch s st = (Except.ok s1, st1)) :
    ∃ beta lv,
      beta = ch.sampleFn (st ++ [TEvent.observe
        (cfg.mmcs.commitMatrix (RowMajorMatrix.new s.folded 2)).1]) ∧
      (cfg.mmcs.getMatrices
        (cfg.mmcs.commitMatrix (RowMajorMatrix.new s.folded 2)).2).getLast? = some lv ∧
      (∀ v rest, s.pending = v :: rest → v.length = (g.foldMatrix beta lv).length →
          s1.pending = rest ∧ s1.folded.length = (g.foldMatrix beta lv).length ∧
          ∀ (i : Nat) (x y : F), (g.foldMatrix beta lv)[i]? = some x → v[i]? = some y →
            s1.folded[i]? = some (x + y)) ∧
      (∀ v rest, s.pending = v :: rest → v.length ≠ (g.foldMatrix beta lv).length →
          s1.folded = g.foldMatrix beta lv ∧ s1.pending = v :: rest) ∧
      (s.pending = [] → s1.folded = g.foldMatrix beta lv ∧ s1.pending = []) := by
  obtain ⟨c, pd, beta, lv, hcp, hbeta, hlv, hst1, hcom, hdata, hmix⟩ := commitPhaseBody_ok h
  refine ⟨beta, lv, by rw [hcp]; exact hbeta, by rw [hcp]; exact hlv, ?_, ?_, ?_⟩
  · intro v rest hvr hlen
    rcases hmix with ⟨hp0, _, _⟩ | ⟨v0, r0, hp0, hlen0, hfold0, hpend0⟩ |
      ⟨v0, r0, hp0, hlen0, _, _⟩
    · rw [hp0] at hvr; cases hvr
    · rw [hp0] at hvr
      obtain ⟨rfl, rfl⟩ : v0 = v ∧ r0 = rest := by
        injection hvr with h1 h2; exact ⟨h1, h2⟩
      refine ⟨hpend0, ?_, ?_⟩
      · rw [hfold0]; exact addAssign_length _ _
      · intro i x y hx hy
        rw [hfold0]
        exact addAssign_getElem _ _ i x y hx hy
    · rw [hp0] at hvr
      obtain ⟨rfl, rfl⟩ : v0 = v ∧ r0 = rest := by
        injection hvr with h1 h2; exact ⟨h1, h2⟩
      exact absurd hlen hlen0
  · intro v rest hvr hlen
    rcases hmix with ⟨hp0, _, _⟩ | ⟨v0, r0, hp0, hlen0, _, _⟩ |
      ⟨v0, r0, hp0, hlen0, hfold0, hpend0⟩
    · rw [hp0] at hvr; cases hvr
    · rw [hp0] at hvr
      obtain ⟨rfl, rfl⟩ : v0 = v ∧ r0 = rest := by
        injection hvr with h1 h2; exact ⟨h1, h2⟩
      exact absurd hlen0 hlen
    · rw [hp0] at hvr
      obtain ⟨rfl, rfl⟩ : v0 = v ∧ r0 = rest := by
        injection hvr with h1 h2; exact ⟨h1, h2⟩
      exact ⟨hfold0, hpend0⟩
  · intro hnil
    rcases hmix with ⟨hp0, hfold0, hpend0⟩ | ⟨v0, r0, hp0, _, _, _⟩ | ⟨v0, r0, hp0, _, _, _⟩
    · exact ⟨hfold0, hpend0⟩
    · rw [hnil] at hp0; cases hp0
    · rw [hnil] at hp0; cases hp0

/-- Witness for C7: a concrete round in which the pending oracle `[5, 6]`
matches the folded length 2 and is mixed in. -/
theorem C7_witness :
    ∃ beta lv,
      beta = chH.sampleFn ([] ++ [TEvent.observe
        (cfgH.mmcs.commitMatrix (RowMajorMatrix.new [1, 2, 3, 4] 2)).1]) ∧
      (cfgH.mmcs.getMatrices
        (cfgH.mmcs.commitMatrix (RowMajorMatrix.new [1, 2, 3, 4] 2)).2).getLast? = some lv ∧
      (∀ v rest, [[5, 6]] = v :: rest → v.length = (gH.foldMatrix beta lv).length →
          ([] : List (List Nat)) = rest ∧
          ([7, 10] : List Nat).length = (gH.foldMatrix beta lv).length ∧
          ∀ (i : Nat) (x y : Nat), (gH.foldMatrix beta lv)[i]? = some x → v[i]? = some y →
            ([7, 10] : List Nat)[i]? = some (x + y)) ∧
      (∀ v rest, [[5, 6]] = v :: rest → v.length ≠ (gH.foldMatrix beta lv).length →
          ([7, 10] : List Nat) = gH.foldMatrix beta lv ∧ ([] : List (List Nat)) = v :: rest) ∧
      ([[5, 6]] = ([] : List (List Nat)) → ([7, 10] : List Nat) = gH.foldMatrix beta lv ∧
          ([] : List (List Nat)) = []) := by
  have h := C7_mixing gH cfgH chH ⟨[1, 2, 3, 4], [[5, 6]], [], []⟩
    ⟨[7, 10], [], [4], [RowMajorMatrix.new [1, 2, 3, 4] 2]⟩
    [] [TEvent.observe 4, TEvent.sample 1] rfl
  exact h

/-- C10: `prove` and `commit_phase` fail at the first-oracle accesses on an
empty input list, producing no proof and leaving the transcript unchanged;
on any nonempty input list those two accesses never fail. -/
theorem C10_nonempty_precondition {F Com PD OP W IP : Type} [Add F] (g : FriGenericConfig F)
    (cfg : FriConfig F Com PD OP) (ch : Challenger F Com W) (fuel : Nat)
    (st : List (TEvent F Com W)) (oi : Nat → IP) :
    prove g cfg ch fuel [] st oi = (Except.error FriError.emptyInput, st) ∧
    commitPhase g cfg ch fuel [] st = (Except.error FriError.emptyInput, st) ∧
    ∀ (inputs : List (List F)), inputs ≠ [] →
      (prove g cfg ch fuel inputs st oi).1 ≠ Except.error FriError.emptyInput ∧
      (commitPhase g cfg ch fuel inputs st).1 ≠ Except.error FriError.emptyInput := by
  refine ⟨by simp [prove, sortedDesc], by simp [commitPhase], ?_⟩
  intro inputs hne
  constructor
  · intro hbad
    rcases hres : prove g cfg ch fuel inputs st oi with ⟨res, stf⟩
    rw [hres] at hbad
    simp only at hbad
    subst hbad
    rcases prove_error hres with ⟨hnil, _⟩ | hcase
    · exact hne hnil
    · rcases hcase with h1 | h1 | h1 | h1 | h1 | h1 | h1 <;> cases h1
  · intro hbad
    rcases hres : commitPhase g cfg ch fuel inputs st with ⟨res, stf⟩
    rw [hres] at hbad
    simp only at hbad
    subst hbad
    rcases commitPhase_error hres with ⟨hnil, _, _⟩ | ⟨_, hcase⟩
    · exact hne hnil
    · rcases hcase with h1 | h1 <;> cases h1

/-- Witness for C10: the empty list fails with `emptyInput` and a singleton
input does not. -/
theorem C10_witness :
    prove gH cfgH chH 5 ([] : List (List Nat)) [] (fun i => i)
      = (Except.error FriError.emptyInput, []) ∧
    (prove gH cfgH chH 5 [[1, 2]] [] (fun i => i)).1 ≠ Except.error FriError.emptyInput :=
  ⟨(C10_nonempty_precondition gH cfgH chH 5 [] (fun i => i)).1,
   ((C10_nonempty_precondition gH cfgH chH 5 [] (fun i => i)).2.2 [[1, 2]] (by simp)).1⟩

/-- C6: on a successful run the transcript event log extends the initial
state by exactly one observe-then-sample pair per commit-phase round (in
round order, the observed commitments being the emitted round commitments),
then a single grind at the configured proof-of-work difficulty recording the
emitted witness, then `num_queries` sample-bits events — no transcript
operation out of this order. -/
theorem C6_transcript_order {F Com PD OP W IP : Type} [Add F] {g : FriGenericConfig F}
    {cfg : FriConfig F Com PD OP} {ch : Challenger F Com W} {fuel : Nat}
    {inputs : List (List F)} {st : List (TEvent F Com W)} {oi : Nat → IP}
    {p : FriProof F Com W IP OP} {st' : List (TEvent F Com W)}
    (h : prove g cfg ch fuel inputs st oi = (Except.ok p, st')) :
    ∃ (ps : List (Com × F)) (idxs : List Nat) (lmh : Nat),
      p.commit_phase_commits = ps.map Prod.fst ∧
      idxs.length = cfg.numQueries ∧
      st' = st ++ (ps.map (fun q => [TEvent.observe q.1, TEvent.sample q.2])).flatten
        ++ [TEvent.grind cfg.proofOfWorkBits p.pow_witness]
        ++ idxs.map (fun v => TEvent.sampleBits (lmh + g.extraQueryIndexBits) v) := by
  obtain ⟨i0, rest, lmh, cpr, st1, qps, hinp, hs, hlg, hcp, hql, hp⟩ := prove_ok h
  obtain ⟨i0x, restx, s', hinpx, hloop, hcpr⟩ := commitPhase_ok hcp
  obtain ⟨_, ps, hst, hcom, _⟩ := commitPhaseLoop_ok_spec fuel _ st hloop
  obtain ⟨idxs, hilen, hqlen, hqst, _⟩ := queryLoop_ok cfg.numQueries _ hql
  refine ⟨ps, idxs, lmh, ?_, hilen, ?_⟩
  · rw [hp, hcpr]
    simpa using hcom
  · rw [hp, hqst, hst]

/-- Witness for C6: the concrete round-trip run (2 rounds, pow difficulty 3,
1 query of width 3 + 1). -/
theorem C6_witness :
    ∃ (ps : List (Nat × Nat)) (idxs : List Nat) (lmh : Nat),
      ([8, 4] : List Nat) = ps.map Prod.fst ∧
      idxs.length = cfgH.numQueries ∧
      ([TEvent.observe 8, TEvent.sample 1, TEvent.observe 4, TEvent.sample 3,
        TEvent.grind 3 7, TEvent.sampleBits 4 0] : List (TEvent Nat Nat Nat)) =
        [] ++ (ps.map (fun q => [TEvent.observe q.1, TEvent.sample q.2])).flatten
          ++ [TEvent.grind cfgH.proofOfWorkBits 7]
          ++ idxs.map (fun v => TEvent.sampleBits (lmh + gH.extraQueryIndexBits) v) :=
  @C6_transcript_order Nat Nat (RowMajorMatrix Nat) Nat Nat Nat _ gH cfgH chH 10
    [[1, 2, 3, 4, 5, 6, 7, 8]] [] (fun i => i) _ _ rfl

/-- C4: every query index is sampled at bit width
`log_max_height + extra_query_index_bits`, with `log_max_height` the base-2
logarithm of the first oracle's length; the extra bits are stripped before
answering; and round `i` of `answer_query` opens row `(index >> i) >> 1` of
round `i`'s retained commitment data, obtaining a single row of two entries,
and records entry `((index >> i) XOR 1) mod 2` as the sibling value together
with that round's opening proof. -/
theorem C4_index_derivation {F Com PD OP W IP : Type} [Add F] (g : FriGenericConfig F)
    (cfg : FriConfig F Com PD OP) (ch : Challenger F Com W) :
    (∀ (data : List PD) (idx : Nat) (steps : List (CommitPhaseProofStep F OP)),
        answerQuery cfg data idx = Except.ok steps →
        steps.length = data.length ∧
        ∀ (i : Nat) (pd : PD), data[i]? = some pd →
          ∃ row op step,
            cfg.mmcs.openBatch ((idx >>> i) >>> 1) pd = ([row], op) ∧
            row.length = 2 ∧ steps[i]? = some step ∧
            row[((idx >>> i) ^^^ 1) % 2]? = some step.sibling_value ∧
            step.opening_proof = op) ∧
    (∀ (fuel : Nat) (inputs : List (List F)) (st : List (TEvent F Com W)) (oi : Nat → IP)
        (p : FriProof F Com W IP OP) (st' : List (TEvent F Com W)),
        prove g cfg ch fuel inputs st oi = (Except.ok p, st') →
        ∃ (i0 : List F) (rest : List (List F)) (lmh : Nat)
          (stq : List (TEvent F Com W)) (idxs : List Nat) (data : List PD),
          inputs = i0 :: rest ∧ i0.length = 2 ^ lmh ∧
          idxs.length = cfg.numQueries ∧
          st' = stq ++ idxs.map (fun v => TEvent.sampleBits (lmh + g.extraQueryIndexBits) v) ∧
          ∀ (k idx : Nat), idxs[k]? = some idx →
            ∃ steps, answerQuery cfg data (idx >>> g.extraQueryIndexBits) = Except.ok steps ∧
              p.query_proofs[k]? = some (QueryProof.mk (oi idx) steps)) := by
  constructor
  · intro data idx steps h
    obtain ⟨hlen, hspec⟩ := answerQueryAux_ok data 0 idx h
    refine ⟨hlen, ?_⟩
    intro i pd hpd
    have hx := hspec i pd hpd
    simpa [Nat.zero_add] using hx
  · intro fuel inputs st oi p st' h
    obtain ⟨i0, rest, lmh, cpr, st1, qps, hinp, hs, hlg, hcp, hql, hp⟩ := prove_ok h
    obtain ⟨idxs, hilen, hqlen, hqst, hspec⟩ := queryLoop_ok cfg.numQueries _ hql
    refine ⟨i0, rest, lmh, st1 ++ [TEvent.grind cfg.proofOfWorkBits
      (ch.grindFn cfg.proofOfWorkBits st1)], idxs, cpr.data, hinp,
      (log2Strict_ok_iff _ _).mp hlg, hilen, hqst, ?_⟩
    intro k idx hk
    obtain ⟨steps, hans, hqpk⟩ := hspec k idx hk
    refine ⟨steps, hans, ?_⟩
    rw [hp]
    simpa using hqpk

/-- Witness for C4 at a concrete run: round 1 of the answered query opens row
`(0 >> 1) >> 1` of the second retained matrix and selects entry
`((0 >> 1) XOR 1) mod 2`. -/
theorem C4_witness :
    answerQuery cfgH
        [RowMajorMatrix.new [1, 2, 3, 4, 5, 6, 7, 8] 2, RowMajorMatrix.new [2, 4, 6, 8] 2] 0
      = Except.ok [⟨2, 0⟩, ⟨4, 0⟩] ∧
    (∃ row op step,
      cfgH.mmcs.openBatch ((0 >>> 1) >>> 1) (RowMajorMatrix.new [2, 4, 6, 8] 2) = ([row], op) ∧
      row.length = 2 ∧
      ([⟨2, 0⟩, ⟨4, 0⟩] : List (CommitPhaseProofStep Nat Nat))[1]? = some step ∧
      row[((0 >>> 1) ^^^ 1) % 2]? = some step.sibling_value ∧
      step.opening_proof = op) :=
  ⟨rfl, ((@C4_index_derivation Nat Nat (RowMajorMatrix Nat) Nat Nat Nat _ gH cfgH chH).1
      [RowMajorMatrix.new [1, 2, 3, 4, 5, 6, 7, 8] 2, RowMajorMatrix.new [2, 4, 6, 8] 2]
      0 [⟨2, 0⟩, ⟨4, 0⟩] rfl).2 1 (RowMajorMatrix.new [2, 4, 6, 8] 2) rfl⟩

/-- C9: if, while answering any query, the commitment scheme's open
operation returns other than exactly one opened row, or an opened row with
other than exactly two entries, proof generation aborts as a fatal invariant
violation without emitting any proof.  Conjunct 1 (general, any scheme): a
malformed response at any consulted round — wrong row count or wrong row
length, uniformly bad or not — makes `answer_query` fail with `badRowCount`
or `badRowLength`.  Conjunct 2 (general contrapositive): every successful
`prove` consulted only well-shaped openings — one row of two entries at every
round of every query — so a malformed response during answering never ends in
an emitted proof.  Conjuncts 3 and 4 (the claim's length-3 stub): a scheme
returning single rows of length 3 aborts the query phase with `badRowLength`
immediately after the first index is sampled, before any query is answered,
and `prove` can then only succeed in runs that never consult the scheme
(no queries or no rounds). -/
theorem C9_bad_row_shape {F Com PD OP W IP : Type} [Add F] (g : FriGenericConfig F)
    (cfg : FriConfig F Com PD OP) (ch : Challenger F Com W) :
    (∀ (data : List PD) (idx i : Nat) (pd : PD), data[i]? = some pd →
        (¬ ∃ row, (cfg.mmcs.openBatch ((idx >>> i) >>> 1) pd).1 = [row] ∧
          row.length = 2) →
        ∃ e, answerQuery cfg data idx = Except.error e ∧
          (e = FriError.badRowCount ∨ e = FriError.badRowLength)) ∧
    (∀ (fuel : Nat) (inputs : List (List F)) (st : List (TEvent F Com W)) (oi : Nat → IP)
        (p : FriProof F Com W IP OP) (st' : List (TEvent F Com W)),
        prove g cfg ch fuel inputs st oi = (Except.ok p, st') →
        ∃ (data : List PD) (idxs : List Nat),
          data.length = p.commit_phase_commits.length ∧
          idxs.length = cfg.numQueries ∧
          ∀ (k idx : Nat), idxs[k]? = some idx →
            ∀ (i : Nat) (pd : PD), data[i]? = some pd →
              ∃ row op,
                cfg.mmcs.openBatch (((idx >>> g.extraQueryIndexBits) >>> i) >>> 1) pd
                  = ([row], op) ∧ row.length = 2) ∧
    (∀ (oi : Nat → IP) (data : List PD) (lmh n : Nat) (st : List (TEvent F Com W)),
        (∀ (i : Nat) (pd : PD), ∃ row,
          (cfg.mmcs.openBatch i pd).1 = [row] ∧ row.length = 3) →
        data ≠ [] → 0 < n →
        queryLoop g cfg ch oi data lmh n st =
          (Except.error FriError.badRowLength,
           st ++ [TEvent.sampleBits (lmh + g.extraQueryIndexBits)
             (ch.sampleBitsFn (lmh + g.extraQueryIndexBits) st)])) ∧
    (∀ (fuel : Nat) (inputs : List (List F)) (st : List (TEvent F Com W)) (oi : Nat → IP)
        (p : FriProof F Com W IP OP) (st' : List (TEvent F Com W)),
        (∀ (i : Nat) (pd : PD), ∃ row,
          (cfg.mmcs.openBatch i pd).1 = [row] ∧ row.length = 3) →
        prove g cfg ch fuel inputs st oi = (Except.ok p, st') →
        cfg.numQueries = 0 ∨ p.commit_phase_commits = []) := by
  refine ⟨?_, ?_, ?_, ?_⟩
  · intro data idx i pd hpd hbadshape
    exact answerQueryAux_bad data 0 idx i pd hpd (by simpa [Nat.zero_add] using hbadshape)
  · intro fuel inputs st oi p st' h
    obtain ⟨i0, rest, lmh, cpr, st1, qps, hinp, hs, hlg, hcp, hql, hp⟩ := prove_ok h
    obtain ⟨i0x, restx, s', hinpx, hloop, hcpr⟩ := commitPhase_ok hcp
    obtain ⟨_, ps, _, hcom, hdataL⟩ := commitPhaseLoop_ok_spec fuel _ st hloop
    obtain ⟨idxs, hilen, hqlen, hqst, hspec⟩ := queryLoop_ok cfg.numQueries _ hql
    refine ⟨cpr.data, idxs, ?_, hilen, ?_⟩
    · rw [hp, hcpr]
      simp [hcom, hdataL]
    · intro k idx hk i pd hpd
      obtain ⟨steps, hans, _⟩ := hspec k idx hk
      obtain ⟨_, hround⟩ := answerQueryAux_ok cpr.data 0 _ hans
      obtain ⟨row, op, step, hob, hrl, _, _, _⟩ := hround i pd hpd
      exact ⟨row, op, by simpa [Nat.zero_add] using hob, hrl⟩
  · intro oi data lmh n st hbad hne hn
    cases n with
    | zero => exact absurd hn (by simp)
    | succ m =>
      simp only [queryLoop, Challenger.sampleBits]
      rw [answerQuery_stub_badRowLength hbad data
        (ch.sampleBitsFn (lmh + g.extraQueryIndexBits) st >>> g.extraQueryIndexBits) hne]
  · intro fuel inputs st oi p st' hbad h
    obtain ⟨i0, rest, lmh, cpr, st1, qps, hinp, hs, hlg, hcp, hql, hp⟩ := prove_ok h
    rcases hnq : cfg.numQueries with _ | m
    · exact Or.inl rfl
    · right
      obtain ⟨idxs, hilen, hqlen, hqst, hspec⟩ := queryLoop_ok cfg.numQueries _ hql
      have h0 : 0 < idxs.length := by rw [hilen, hnq]; omega
      obtain ⟨steps, hans, _⟩ := hspec 0 idxs[0] (List.getElem?_eq_getElem h0)
      have hdata : cpr.data = [] := by
        by_contra hne
        rw [answerQuery_stub_badRowLength hbad cpr.data
          (idxs[0] >>> g.extraQueryIndexBits) hne] at hans
        cases hans
      obtain ⟨i0x, restx, s', hinpx, hloop, hcpr⟩ := commitPhase_ok hcp
      obtain ⟨_, ps, _, hcom, hdataL⟩ := commitPhaseLoop_ok_spec fuel _ st hloop
      have hps : ps.length = 0 := by
        have hx : cpr.data.length = ps.length := by rw [hcpr]; simpa using hdataL
        rw [hdata] at hx
        simpa using hx.symm
      have hps0 : ps = [] := List.length_eq_zero.mp hps
      rw [hp]
      have hcc : cpr.commits = [] := by rw [hcpr]; simp [hcom, hps0]
      simpa using hcc

/-- Witness for C9.  A scheme that is malformed only at one round (two rows
when opening the 4-value matrix, well-formed elsewhere) makes `answer_query`
abort with the wrong-row-count violation at round 1; and the claim's uniform
length-3 stub aborts the query phase with `badRowLength` right after the
first index is sampled. -/
theorem C9_witness :
    (∃ e, answerQuery cfgBad2
        [RowMajorMatrix.new [1, 2, 3, 4, 5, 6, 7, 8] 2, RowMajorMatrix.new [2, 4, 6, 8] 2] 0
        = Except.error e ∧
      (e = FriError.badRowCount ∨ e = FriError.badRowLength)) ∧
    queryLoop gH cfgBad chH (fun i => i) [RowMajorMatrix.new [1, 2] 2] 1 1 []
      = (Except.error FriError.badRowLength,
         [TEvent.sampleBits (1 + gH.extraQueryIndexBits)
           (chH.sampleBitsFn (1 + gH.extraQueryIndexBits) [])]) :=
  ⟨(@C9_bad_row_shape Nat Nat (RowMajorMatrix Nat) Nat Nat Nat _ gH cfgBad2 chH).1
      [RowMajorMatrix.new [1, 2, 3, 4, 5, 6, 7, 8] 2, RowMajorMatrix.new [2, 4, 6, 8] 2]
      0 1 (RowMajorMatrix.new [2, 4, 6, 8] 2) rfl
      (by rintro ⟨row, hrow, _⟩; simp [mmcsBad2, cfgBad2, RowMajorMatrix.new] at hrow),
   (@C9_bad_row_shape Nat Nat (RowMajorMatrix Nat) Nat Nat Nat _ gH cfgBad chH).2.2.1
      (fun i => i) [RowMajorMatrix.new [1, 2] 2] 1 1 []
      (fun _ _ => ⟨[7, 8, 9], rfl, rfl⟩) (by simp) (by simp)⟩

/-- Counterexample for C5 as stated.  First input: `[[1,2],[3,4]]` is not
sorted strictly by decreasing length, yet `prove` performs transcript
interactions (the final event log is nonempty) instead of failing before any
transcript interaction.  Second input: `[[1,2,3,4],[5,6,7]]` contains an
oracle whose length 3 is not a power of two, yet `prove` again performs
transcript interactions.  (Both runs starve in the commit loop: the embedded
run ends in fuel exhaustion, corresponding to a nonterminating source run that
keeps mutating the transcript.) -/
theorem C5_counterexample :
    (¬ List.Chain' (fun l r : List Nat => r.length < l.length) [[1, 2], [3, 4]] ∧
      (prove gH cfgH chH 12 [[1, 2], [3, 4]] [] (fun i => i)).2 ≠ []) ∧
    (([5, 6, 7] ∈ [[1, 2, 3, 4], [5, 6, 7]] ∧ ∀ kk : Nat, (3 : Nat) ≠ 2 ^ kk) ∧
      (prove gH cfgH chH 12 [[1, 2, 3, 4], [5, 6, 7]] [] (fun i => i)).2 ≠ []) := by
  refine ⟨⟨by simp [List.chain'_cons], by decide⟩, ⟨⟨by decide, ?_⟩, by decide⟩⟩
  intro kk h
  rcases kk with _ | _ | m
  · simp at h
  · simp at h
  · have h4 : 4 ≤ 2 ^ (m + 2) := by
      calc (4 : Nat) = 2 ^ 2 := by norm_num
      _ ≤ 2 ^ (m + 2) := Nat.pow_le_pow_right (by norm_num) (by omega)
    omega

/-- C5 (amended): the precondition check accepts exactly the input lists with
non-increasing lengths — strict decrease is not required — and
`log2_strict_usize` checks only the first oracle's length.  When the lengths
are not non-increasing, or the first length is not a power of two, `prove`
fails before performing any transcript interaction and leaves the transcript
unchanged; every nonempty input with non-increasing lengths whose first length
is a power of two passes both checks. -/
theorem C5_precondition_check {F Com PD OP W IP : Type} [Add F] (g : FriGenericConfig F)
    (cfg : FriConfig F Com PD OP) (ch : Challenger F Com W) (fuel : Nat)
    (st : List (TEvent F Com W)) (oi : Nat → IP) (inputs : List (List F)) :
    (sortedDesc inputs = true ↔
      List.Chain' (fun l r : List F => r.length ≤ l.length) inputs) ∧
    (sortedDesc inputs = false →
      prove g cfg ch fuel inputs st oi = (Except.error FriError.notSorted, st)) ∧
    (∀ (i0 : List F) (rest : List (List F)), inputs = i0 :: rest →
      sortedDesc inputs = true → (¬ ∃ k, i0.length = 2 ^ k) →
      prove g cfg ch fuel inputs st oi =
        (Except.error FriError.logNotStrict, st)) ∧
    (∀ (i0 : List F) (rest : List (List F)), inputs = i0 :: rest →
      sortedDesc inputs = true → (∃ k, i0.length = 2 ^ k) →
      (prove g cfg ch fuel inputs st oi).1 ≠ Except.error FriError.notSorted ∧
      (prove g cfg ch fuel inputs st oi).1 ≠
        Except.error FriError.logNotStrict) := by
  refine ⟨sortedDesc_iff_chain inputs, ?_, ?_, ?_⟩
  · intro hs
    unfold prove
    rw [if_neg (by simp [hs])]
  · intro i0 rest hinp hs hnp
    subst hinp
    have hlg : log2Strict i0.length = Except.error FriError.logNotStrict := by
      rcases hf : log2Strict i0.length with e | k
      · rw [log2Strict_error hf]
      · exact absurd ⟨k, (log2Strict_ok_iff _ _).mp hf⟩ hnp
    unfold prove
    rw [if_pos hs]
    simp only [hlg]
  · intro i0 rest hinp hs hex
    obtain ⟨k, hk⟩ := hex
    have hlg : log2Strict i0.length = Except.ok k := (log2Strict_ok_iff _ _).mpr hk
    constructor
    · intro hbad
      rcases hres : prove g cfg ch fuel inputs st oi with ⟨res, stf⟩
      rw [hres] at hbad
      simp only at hbad
      subst hbad
      rcases prove_error_refined hs hinp hlg hres with h1 | h1 | h1 | h1 | h1 <;> cases h1
    · intro hbad
      rcases hres : prove g cfg ch fuel inputs st oi with ⟨res, stf⟩
      rw [hres] at hbad
      simp only at hbad
      subst hbad
      rcases prove_error_refined hs hinp hlg hres with h1 | h1 | h1 | h1 | h1 <;> cases h1

/-- Witness for the amended C5: an input that is not non-increasing is
rejected with the transcript unchanged, and a valid one passes both checks. -/
theorem C5_witness :
    prove gH cfgH chH 7 [[1, 2], [3, 4, 5, 6]] [] (fun i => i)
      = (Except.error FriError.notSorted, []) ∧
    (prove gH cfgH chH 7 [[1, 2, 3, 4], [5, 6]] [] (fun i => i)).1 ≠
      Except.error FriError.notSorted :=
  ⟨(C5_precondition_check gH cfgH chH 7 [] (fun i => i) [[1, 2], [3, 4, 5, 6]]).2.1
      (by decide),
   ((C5_precondition_check gH cfgH chH 7 [] (fun i => i) [[1, 2, 3, 4], [5, 6]]).2.2.2
      [1, 2, 3, 4] [[5, 6]] rfl (by decide) ⟨2, by decide⟩).1⟩

/-- Counterexample for C8 as stated: two valid input sets with the same
largest oracle length 8, the same blowup 4 and the same final-polynomial
threshold 2 (configuration `cfgB`), yet the presence of an additional shorter
oracle of length 2 changes the number of round commitments from 1 to 2. -/
theorem C8_counterexample :
    ((commitPhase gH cfgB chH 10 [[1, 2, 3, 4, 5, 6, 7, 8]] []).1.map
        (fun r => r.commits.length) = Except.ok 1) ∧
    ((commitPhase gH cfgB chH 10 [[1, 2, 3, 4, 5, 6, 7, 8], [9, 10]] []).1.map
        (fun r => r.commits.length) = Except.ok 2) :=
  ⟨rfl, rfl⟩

/-- C8 (amended): the number of round commitments R is independent of the
transcript randomness and of the oracle values, but it is a function of the
full list of oracle lengths (not of the largest length alone) together with
the blowup and the final-polynomial threshold: two successful runs over
configurations agreeing on blowup and threshold, with commitment schemes that
retain the committed matrix, fold strategies whose output length is the same
function of the input length, and inputs with equal length lists, produce the
same R — for any two challengers and any oracle values. -/
theorem C8_round_count {F Com PD OP W Com2 PD2 OP2 W2 : Type} [Add F]
    (g1 : FriGenericConfig F) (cfg1 : FriConfig F Com PD OP) (ch1 : Challenger F Com W)
    (g2 : FriGenericConfig F) (cfg2 : FriConfig F Com2 PD2 OP2) (ch2 : Challenger F Com2 W2)
    (hb : cfg1.blowup = cfg2.blowup) (hf : cfg1.finalPolyLen = cfg2.finalPolyLen)
    (hm1 : ∀ m, (cfg1.mmcs.getMatrices (cfg1.mmcs.commitMatrix m).2).getLast? = some m)
    (hm2 : ∀ m, (cfg2.mmcs.getMatrices (cfg2.mmcs.commitMatrix m).2).getLast? = some m)
    (lf : Nat → Nat)
    (hl1 : ∀ beta m, (g1.foldMatrix beta m).length = lf m.values.length)
    (hl2 : ∀ beta m, (g2.foldMatrix beta m).length = lf m.values.length)
    (fuel : Nat) (inputs1 inputs2 : List (List F))
    (st1 : List (TEvent F Com W)) (st2 : List (TEvent F Com2 W2))
    (r1 : CommitPhaseResult F Com PD) (r2 : CommitPhaseResult F Com2 PD2)
    (st1f : List (TEvent F Com W)) (st2f : List (TEvent F Com2 W2))
    (hlen : inputs1.map List.length = inputs2.map List.length)
    (h1 : commitPhase g1 cfg1 ch1 fuel inputs1 st1 = (Except.ok r1, st1f))
    (h2 : commitPhase g2 cfg2 ch2 fuel inputs2 st2 = (Except.ok r2, st2f)) :
    r1.commits.length = r2.commits.length := by
  obtain ⟨i0a, resta, s1', hinp1, hloop1, hr1⟩ := commitPhase_ok h1
  obtain ⟨i0b, restb, s2', hinp2, hloop2, hr2⟩ := commitPhase_ok h2
  subst hinp1
  subst hinp2
  simp only [List.map_cons, List.cons.injEq] at hlen
  obtain ⟨hl0, hlrest⟩ := hlen
  have hR := commitPhaseLoop_lockstep hb hf hm1 hm2 lf hl1 hl2 fuel
    ⟨i0a, resta, [], []⟩ ⟨i0b, restb, [], []⟩ st1 st2 hl0 hlrest rfl hloop1 hloop2
  rw [hr1, hr2]
  exact hR

/-- Witness for the amended C8: two runs with different challengers and
different oracle values but equal length lists produce the same round count. -/
theorem C8_witness :
    ∃ (r1 r2 : CommitPhaseResult Nat Nat (RowMajorMatrix Nat))
      (st1f st2f : List (TEvent Nat Nat Nat)),
      commitPhase gH cfgH chH 10 [[1, 2, 3, 4], [5, 6]] [] = (Except.ok r1, st1f) ∧
      commitPhase gH cfgH chH2 10 [[7, 7, 7, 7], [1, 2]] [] = (Except.ok r2, st2f) ∧
      r1.commits.length = r2.commits.length :=
  ⟨_, _, _, _, rfl, rfl,
    C8_round_count gH cfgH chH gH cfgH chH2 rfl rfl (fun m => rfl) (fun m => rfl)
      (fun n => n / 2) (fun beta m => by simp [gH]) (fun beta m => by simp [gH])
      10 [[1, 2, 3, 4], [5, 6]] [[7, 7, 7, 7], [1, 2]] [] [] _ _ _ _ (by decide) rfl rfl⟩

end FriProver
